import Mathlib

/-!
Verification of the thyme-backend library synchronization and derivation
pipeline: a shallow embedding of the Go sources (packages photos and thumbs)
together with proofs about the Scanner, the Linker and the thumbnail cache.

Modelling conventions:
* SQLite rows are Lean structures; a table is a list of rows in rowid order
  (rowids are assigned by an increasing counter, as INTEGER PRIMARY KEY does
  for an insert-only table).
* SQL text columns are String, NULLable columns are Option, decimal columns
  are Rat.
* ORDER BY ... taken_at follows documented SQLite semantics: NULL compares
  below every non-NULL value, and non-NULL char(19) timestamps compare
  lexicographically.  Rows tied on the full ORDER BY key are modelled as
  returned in rowid order (the scan feeding the sorter enumerates rowids in
  ascending order).
* Go file paths are modelled as lists of path segments, so that
  filepath.Base (filepath.Dir p) is the second to last segment.
-/

namespace photos

/-- The attribute part of the photos table as filled in by Photo.decode in
photos.go: everything except id, set_id and the two sibling links.  This is
the value the Scanner extracts from one image file. -/
structure DecodedPhoto where
  path : List String
  size : Int
  width : Int
  height : Int
  taken_at : Option String
  aperture : Option Rat
  camera : Option String
  exposure_comp : Option Int
  exposure_time : Option Rat
  flash : Option String
  focal_length : Option Rat
  focal_length_35 : Option Int
  iso : Option Int
  lat : Option Rat
  lens : Option String
  lng : Option Rat
  deriving DecidableEq, Repr

/-- One row of the photos table (schema in photos.go). -/
structure Photo where
  id : Nat
  set_id : Nat
  prev_photo_id : Option Nat
  next_photo_id : Option Nat
  path : List String
  size : Int
  width : Int
  height : Int
  taken_at : Option String
  aperture : Option Rat
  camera : Option String
  exposure_comp : Option Int
  exposure_time : Option Rat
  flash : Option String
  focal_length : Option Rat
  focal_length_35 : Option Int
  iso : Option Int
  lat : Option Rat
  lens : Option String
  lng : Option Rat
  deriving DecidableEq, Repr

/-- One row of the sets table (schema in photos.go).  INSERT INTO sets (name)
fills only the name, so the remaining columns start as NULL. -/
structure SetRow where
  id : Nat
  thumb_photo_id : Option Nat
  name : String
  photos_count : Option Nat
  taken_at : Option String
  deriving DecidableEq, Repr

/-- The relational store: both tables plus the rowid counters the next
inserts will use. -/
structure Store where
  sets : List SetRow
  photos : List Photo
  nextSetId : Nat
  nextPhotoId : Nat
  deriving DecidableEq, Repr

/-- A store as created by setupDatabase on a fresh database: empty tables,
rowids start at 1. -/
def emptyStore : Store := ⟨[], [], 1, 1⟩

/-- filepath.Base (filepath.Dir path) on the segment representation: the name
of the directory holding the file, "." when the path has no directory part
(mirroring the Go functions on a relative single-segment path). -/
def setNameOf (path : List String) : String :=
  (path.dropLast.getLast?).getD "."

/-- The new photos row built by insertPhotoStmt in Photo.store: the decoded
attributes plus the assigned rowid and the owning set, with both sibling
links NULL. -/
def photoRow (id setId : Nat) (p : DecodedPhoto) : Photo :=
  { id := id, set_id := setId, prev_photo_id := none, next_photo_id := none,
    path := p.path, size := p.size, width := p.width, height := p.height,
    taken_at := p.taken_at, aperture := p.aperture, camera := p.camera,
    exposure_comp := p.exposure_comp, exposure_time := p.exposure_time,
    flash := p.flash, focal_length := p.focal_length,
    focal_length_35 := p.focal_length_35, iso := p.iso, lat := p.lat,
    lens := p.lens, lng := p.lng }

/-- Second half of Photo.store: SELECT id FROM photos WHERE path = ?, and
INSERT only when no row exists (first write wins, no update). -/
def insertPhotoIfAbsent (p : DecodedPhoto) (setId : Nat) (s : Store) : Store :=
  match s.photos.find? (fun q => q.path = p.path) with
  | some _ => s
  | none =>
      { s with photos := s.photos ++ [photoRow s.nextPhotoId setId p],
               nextPhotoId := s.nextPhotoId + 1 }

/-- Photo.store in photos.go: resolve (or create) the owning set by its name,
then insert the photo unless a row with the same path already exists. -/
def store (p : DecodedPhoto) (s : Store) : Store :=
  match s.sets.find? (fun r => r.name = setNameOf p.path) with
  | some r => insertPhotoIfAbsent p r.id s
  | none =>
      insertPhotoIfAbsent p s.nextSetId
        { s with sets := s.sets ++ [⟨s.nextSetId, none, setNameOf p.path, none, none⟩],
                 nextSetId := s.nextSetId + 1 }

/-- The Scanner pass of Scan: filepath.Walk feeding Photo.store for every
eligible decoded file, in walk order. -/
def scanStore (inputs : List DecodedPhoto) (s : Store) : Store :=
  inputs.foldl (fun st p => store p st) s

/-- A set name is present in the sets table. -/
def setNamePresent (s : Store) (n : String) : Prop :=
  ∃ r ∈ s.sets, r.name = n

/-- A photo path is present in the photos table. -/
def pathPresent (s : Store) (path : List String) : Prop :=
  ∃ q ∈ s.photos, q.path = path

theorem find?_isSome_of_mem {α : Type} {p : α → Bool} {l : List α} {a : α}
    (ha : a ∈ l) (hpa : p a = true) : (l.find? p).isSome = true := by
  induction l with
  | nil => cases ha
  | cons x xs ih =>
      rcases List.mem_cons.mp ha with h | h
      · subst h
        simp [List.find?, hpa]
      · by_cases hx : p x
        · simp [List.find?, hx]
        · simpa [List.find?, hx] using ih h

theorem insertPhotoIfAbsent_of_present {p : DecodedPhoto} {setId : Nat}
    {s : Store} (h : pathPresent s p.path) :
    insertPhotoIfAbsent p setId s = s := by
  obtain ⟨q, hq, hqp⟩ := h
  have : (s.photos.find? (fun q => q.path = p.path)).isSome = true :=
    find?_isSome_of_mem hq (by simp [hqp])
  unfold insertPhotoIfAbsent
  cases hf : s.photos.find? (fun q => q.path = p.path) with
  | some _ => rfl
  | none => rw [hf] at this; simp at this

/-- Storing a photo whose set name and path are both already present is a
no-op on the store. -/
theorem store_of_present {p : DecodedPhoto} {s : Store}
    (hset : setNamePresent s (setNameOf p.path))
    (hpath : pathPresent s p.path) :
    store p s = s := by
  obtain ⟨r, hr, hrn⟩ := hset
  have hs : (s.sets.find? (fun r => r.name = setNameOf p.path)).isSome = true :=
    find?_isSome_of_mem hr (by simp [hrn])
  unfold store
  split
  · exact insertPhotoIfAbsent_of_present hpath
  · next hf => rw [hf] at hs; simp at hs

theorem sets_sublist_insertPhotoIfAbsent (p : DecodedPhoto) (setId : Nat)
    (s : Store) : (insertPhotoIfAbsent p setId s).sets = s.sets := by
  unfold insertPhotoIfAbsent
  cases s.photos.find? (fun q => q.path = p.path) <;> rfl

theorem photos_prefix_insertPhotoIfAbsent (p : DecodedPhoto) (setId : Nat)
    (s : Store) :
    ∃ t, (insertPhotoIfAbsent p setId s).photos = s.photos ++ t := by
  unfold insertPhotoIfAbsent
  cases s.photos.find? (fun q => q.path = p.path) with
  | some _ => exact ⟨[], by simp⟩
  | none => exact ⟨_, rfl⟩

theorem setNamePresent_store (p q : DecodedPhoto) (s : Store)
    (h : setNamePresent s (setNameOf q.path)) :
    setNamePresent (store p s) (setNameOf q.path) := by
  obtain ⟨r, hr, hrn⟩ := h
  unfold store
  split
  · exact ⟨r, by rw [sets_sublist_insertPhotoIfAbsent]; exact hr, hrn⟩
  · refine ⟨r, ?_, hrn⟩
    rw [sets_sublist_insertPhotoIfAbsent]
    simp [hr]

theorem pathPresent_store (p q : DecodedPhoto) (s : Store)
    (h : pathPresent s q.path) : pathPresent (store p s) q.path := by
  obtain ⟨x, hx, hxp⟩ := h
  unfold store
  split
  · next r' hf =>
      obtain ⟨t, ht⟩ := photos_prefix_insertPhotoIfAbsent p r'.id s
      exact ⟨x, by rw [ht]; exact List.mem_append_left _ hx, hxp⟩
  · obtain ⟨t, ht⟩ := photos_prefix_insertPhotoIfAbsent p s.nextSetId
      { s with sets := s.sets ++ [⟨s.nextSetId, none, setNameOf p.path, none, none⟩],
               nextSetId := s.nextSetId + 1 }
    exact ⟨x, by rw [ht]; exact List.mem_append_left _ hx, hxp⟩

theorem setNamePresent_store_self (p : DecodedPhoto) (s : Store) :
    setNamePresent (store p s) (setNameOf p.path) := by
  unfold store
  split
  · next r' hf =>
      have hr' := List.find?_some hf
      have hmem := List.mem_of_find?_eq_some hf
      refine ⟨r', ?_, by simpa using hr'⟩
      rw [sets_sublist_insertPhotoIfAbsent]
      exact hmem
  · refine ⟨⟨s.nextSetId, none, setNameOf p.path, none, none⟩, ?_, rfl⟩
    rw [sets_sublist_insertPhotoIfAbsent]
    simp

theorem pathPresent_store_self (p : DecodedPhoto) (s : Store) :
    pathPresent (store p s) p.path := by
  have key : ∀ (setId : Nat) (t : Store),
      pathPresent (insertPhotoIfAbsent p setId t) p.path := by
    intro setId t
    unfold insertPhotoIfAbsent
    split
    · next q hf =>
        have hq := List.find?_some hf
        have hmem := List.mem_of_find?_eq_some hf
        exact ⟨q, hmem, by simpa using hq⟩
    · exact ⟨photoRow t.nextPhotoId setId p, by simp, rfl⟩
  unfold store
  split
  · next r' hf => exact key r'.id s
  · exact key s.nextSetId _

theorem scanStore_preserves_present (inputs : List DecodedPhoto) (s : Store)
    (q : DecodedPhoto)
    (hset : setNamePresent s (setNameOf q.path))
    (hpath : pathPresent s q.path) :
    setNamePresent (scanStore inputs s) (setNameOf q.path) ∧
      pathPresent (scanStore inputs s) q.path := by
  induction inputs generalizing s with
  | nil => exact ⟨hset, hpath⟩
  | cons p ps ih =>
      exact ih (store p s) (setNamePresent_store p q s hset)
        (pathPresent_store p q s hpath)

/-- After one Scanner pass, every scanned input has its set name and its path
present in the store. -/
theorem scanStore_present (inputs : List DecodedPhoto) (s : Store) :
    ∀ q ∈ inputs, setNamePresent (scanStore inputs s) (setNameOf q.path) ∧
      pathPresent (scanStore inputs s) q.path := by
  induction inputs generalizing s with
  | nil => intro q hq; cases hq
  | cons p ps ih =>
      intro q hq
      rcases List.mem_cons.mp hq with h | h
      · subst h
        exact scanStore_preserves_present ps (store q s) q
          (setNamePresent_store_self q s) (pathPresent_store_self q s)
      · exact ih (store p s) q h

theorem scanStore_of_all_present (inputs : List DecodedPhoto) (s : Store)
    (h : ∀ q ∈ inputs, setNamePresent s (setNameOf q.path) ∧ pathPresent s q.path) :
    scanStore inputs s = s := by
  induction inputs with
  | nil => rfl
  | cons p ps ih =>
      have hp := h p (by simp)
      have hstep : store p s = s := store_of_present hp.1 hp.2
      show scanStore ps (store p s) = s
      rw [hstep]
      exact ih (fun q hq => h q (List.mem_cons_of_mem _ hq))

/-! ## Linker phase A: sibling chains (updatePhotoSiblings in photos.go) -/

/-- SQLite BINARY collation on text, on the character lists: lexicographic
by code point (for the ASCII char(19) timestamps this is bytewise order). -/
def charsLE : List Char → List Char → Bool
  | [], _ => true
  | _ :: _, [] => false
  | c :: cs, d :: ds =>
      if c = d then charsLE cs ds
      else decide (c < d)

/-- SQLite BINARY collation on two text values. -/
def strLE (x y : String) : Bool :=
  charsLE x.data y.data

theorem charsLE_refl : ∀ l : List Char, charsLE l l = true
  | [] => rfl
  | c :: cs => by
      show (if c = c then charsLE cs cs else _) = true
      rw [if_pos rfl]
      exact charsLE_refl cs

theorem strLE_refl (x : String) : strLE x x = true :=
  charsLE_refl x.data

theorem charsLE_total : ∀ l1 l2 : List Char,
    charsLE l1 l2 = true ∨ charsLE l2 l1 = true
  | [], _ => Or.inl rfl
  | _ :: _, [] => Or.inr rfl
  | c :: cs, d :: ds => by
      by_cases h : c = d
      · show (if c = d then charsLE cs ds else _) = true ∨
          (if d = c then charsLE ds cs else _) = true
        rw [if_pos h, if_pos h.symm]
        exact charsLE_total cs ds
      · show (if c = d then charsLE cs ds else decide (c < d)) = true ∨
          (if d = c then charsLE ds cs else decide (d < c)) = true
        rw [if_neg h, if_neg (fun hc => h hc.symm)]
        rcases lt_or_gt_of_ne h with hlt | hlt
        · exact Or.inl (decide_eq_true hlt)
        · exact Or.inr (decide_eq_true hlt)

theorem strLE_total (x y : String) :
    strLE x y = true ∨ strLE y x = true :=
  charsLE_total x.data y.data

theorem charsLE_cons (c d : Char) (cs ds : List Char) :
    charsLE (c :: cs) (d :: ds) =
      if c = d then charsLE cs ds else decide (c < d) := rfl

theorem charsLE_trans : ∀ l1 l2 l3 : List Char, charsLE l1 l2 = true →
    charsLE l2 l3 = true → charsLE l1 l3 = true
  | [], _, _ => fun _ _ => rfl
  | _ :: _, [], _ => fun h _ => by cases h
  | _ :: _, _ :: _, [] => fun _ h => by cases h
  | c :: cs, d :: ds, e :: es => fun h1 h2 => by
      rw [charsLE_cons] at h1 h2
      rw [charsLE_cons]
      by_cases hcd : c = d <;> by_cases hde : d = e
      · rw [if_pos hcd] at h1
        rw [if_pos hde] at h2
        rw [if_pos (hcd.trans hde)]
        exact charsLE_trans cs ds es h1 h2
      · rw [if_pos hcd] at h1
        rw [if_neg hde] at h2
        rw [if_neg (fun hc => hde (hcd.symm.trans hc)), hcd]
        exact h2
      · rw [if_neg hcd] at h1
        rw [if_pos hde] at h2
        rw [if_neg (fun hc => hcd (hc.trans hde.symm)), ← hde]
        exact h1
      · rw [if_neg hcd] at h1
        rw [if_neg hde] at h2
        have hlt : c < e :=
          lt_trans (of_decide_eq_true h1) (of_decide_eq_true h2)
        rw [if_neg (fun hc => absurd hlt (by rw [hc]; exact lt_irrefl e))]
        exact decide_eq_true hlt

theorem strLE_trans {x y z : String} (h1 : strLE x y = true)
    (h2 : strLE y z = true) : strLE x z = true :=
  charsLE_trans x.data y.data z.data h1 h2

theorem charsLE_antisymm : ∀ l1 l2 : List Char, charsLE l1 l2 = true →
    charsLE l2 l1 = true → l1 = l2
  | [], [] => fun _ _ => rfl
  | [], _ :: _ => fun _ h => by cases h
  | _ :: _, [] => fun h _ => by cases h
  | c :: cs, d :: ds => fun h1 h2 => by
      rw [charsLE_cons] at h1 h2
      by_cases hcd : c = d
      · rw [if_pos hcd] at h1
        rw [if_pos hcd.symm] at h2
        rw [hcd, charsLE_antisymm cs ds h1 h2]
      · rw [if_neg hcd] at h1
        rw [if_neg (fun hc => hcd hc.symm)] at h2
        exact absurd (lt_trans (of_decide_eq_true h1) (of_decide_eq_true h2))
          (lt_irrefl c)

theorem strLE_antisymm {x y : String} (h1 : strLE x y = true)
    (h2 : strLE y x = true) : x = y := by
  cases x with
  | mk xd =>
      cases y with
      | mk yd =>
          rw [charsLE_antisymm xd yd h1 h2]

/-- MIN of two text values under the BINARY collation. -/
def minStr (x y : String) : String :=
  if strLE x y then x else y

theorem minStr_choice (x y : String) : minStr x y = x ∨ minStr x y = y := by
  unfold minStr
  by_cases h : strLE x y = true
  · rw [if_pos h]; exact Or.inl rfl
  · rw [if_neg h]; exact Or.inr rfl

theorem minStr_le_left (x y : String) : strLE (minStr x y) x = true := by
  unfold minStr
  by_cases h : strLE x y = true
  · rw [if_pos h]; exact strLE_refl x
  · rw [if_neg h]
    rcases strLE_total x y with h2 | h2
    · exact absurd h2 h
    · exact h2

theorem minStr_le_right (x y : String) : strLE (minStr x y) y = true := by
  unfold minStr
  by_cases h : strLE x y = true
  · rw [if_pos h]; exact h
  · rw [if_neg h]; exact strLE_refl y

/-- SQLite comparison of two NULLable taken_at values in ascending ORDER BY:
NULL sorts below every non-NULL value, non-NULL char(19) timestamps compare
under the BINARY collation. -/
def nullFirstLE (a b : Option String) : Bool :=
  match a, b with
  | none, _ => true
  | some _, none => false
  | some x, some y => strLE x y

/-- The ORDER BY set_id, taken_at key of the phase A query, as a Boolean
total preorder on rows.  Rows tied on the whole SQL key are returned in
rowid order, hence the final id component. -/
def photoLE (a b : Photo) : Bool :=
  if a.set_id = b.set_id then
    if a.taken_at = b.taken_at then decide (a.id ≤ b.id)
    else nullFirstLE a.taken_at b.taken_at
  else decide (a.set_id < b.set_id)

/-- The ORDER BY key as a relation. -/
def photoLEP (a b : Photo) : Prop :=
  photoLE a b = true

instance photoLEP.instDecidable (a b : Photo) : Decidable (photoLEP a b) := by
  unfold photoLEP
  infer_instance

/-- The row sequence of SELECT id, set_id FROM photos ORDER BY set_id,
taken_at: any sort under the ORDER BY key (the key is total, so the result
is unique up to rows tied on the whole key; the model uses a stable sort, so
ties keep rowid order, matching the index scan feeding the sorter). -/
def sortedPhotos (l : List Photo) : List Photo :=
  l.insertionSort photoLEP

/-- UPDATE photos SET prev_photo_id = pid WHERE id = i. -/
def setPrev (photos : List Photo) (i pid : Nat) : List Photo :=
  photos.map (fun q => if q.id = i then { q with prev_photo_id := some pid } else q)

/-- UPDATE photos SET next_photo_id = nid WHERE id = i. -/
def setNext (photos : List Photo) (i nid : Nat) : List Photo :=
  photos.map (fun q => if q.id = i then { q with next_photo_id := some nid } else q)

/-- The row loop of updatePhotoSiblings: prevId and prevSetId start at the Go
zero value 0; whenever the current row shares set_id with the previous row
and prevId is positive, the current row gets prev_photo_id = prevId and the
previous row gets next_photo_id = current id. -/
def siblingsLoop : List Photo → Nat → Nat → List Photo → List Photo
  | [], _, _, photos => photos
  | row :: rest, prevId, prevSetId, photos =>
      siblingsLoop rest row.id row.set_id
        (if row.set_id = prevSetId ∧ 0 < prevId
         then setNext (setPrev photos row.id prevId) prevId row.id
         else photos)

/-- updatePhotoSiblings in photos.go: walk the ordered rows and persist the
sibling links (the schema is only read and written through the photos
table). -/
def updatePhotoSiblings (s : Store) : Store :=
  { s with photos := siblingsLoop (sortedPhotos s.photos) 0 0 s.photos }

/-- The (prevId, id) pairs linked by the loop when started from the initial
zero state, expressed structurally: every two adjacent rows that share a set
and whose first component has a positive id. -/
def consPairs : List Photo → List (Nat × Nat)
  | a :: b :: rest =>
      (if b.set_id = a.set_id ∧ 0 < a.id then [(a.id, b.id)] else []) ++
        consPairs (b :: rest)
  | _ => []

/-- The combined effect of the two UPDATE statements issued for one linked
pair (prevId, id). -/
def applyPair (photos : List Photo) (pr : Nat × Nat) : List Photo :=
  setNext (setPrev photos pr.2 pr.1) pr.1 pr.2

def applyPairs (prs : List (Nat × Nat)) (photos : List Photo) : List Photo :=
  prs.foldl applyPair photos

/-- The effect of one linked pair on a single row: first the prev update on
row pr.2, then the next update on row pr.1 (updating prev_photo_id never
changes the id the second statement matches on). -/
def pairStep (pr : Nat × Nat) (q : Photo) : Photo :=
  if q.id = pr.1 then
    if q.id = pr.2 then { q with prev_photo_id := some pr.1, next_photo_id := some pr.2 }
    else { q with next_photo_id := some pr.2 }
  else if q.id = pr.2 then { q with prev_photo_id := some pr.1 }
  else q

/-- The effect of the pair list on a single row. -/
def applyToPhoto (prs : List (Nat × Nat)) (q : Photo) : Photo :=
  prs.foldl (fun q pr => pairStep pr q) q

theorem consPairs_cons_cons (a b : Photo) (rest : List Photo) :
    consPairs (a :: b :: rest) =
      (if b.set_id = a.set_id ∧ 0 < a.id then [(a.id, b.id)] else []) ++
        consPairs (b :: rest) := rfl

theorem siblingsLoop_cons (row : Photo) (rest : List Photo)
    (prevId prevSetId : Nat) (photos : List Photo) :
    siblingsLoop (row :: rest) prevId prevSetId photos =
      siblingsLoop rest row.id row.set_id
        (if row.set_id = prevSetId ∧ 0 < prevId
         then setNext (setPrev photos row.id prevId) prevId row.id
         else photos) := rfl

theorem siblingsLoop_eq_applyPairs_aux :
    ∀ (rows : List Photo) (a : Photo) (photos : List Photo),
      siblingsLoop rows a.id a.set_id photos =
        applyPairs (consPairs (a :: rows)) photos := by
  intro rows
  induction rows with
  | nil => intro a photos; rfl
  | cons b rest ih =>
      intro a photos
      rw [siblingsLoop_cons, ih b, consPairs_cons_cons]
      by_cases h : b.set_id = a.set_id ∧ 0 < a.id
      · rw [if_pos h, if_pos h]
        rfl
      · rw [if_neg h, if_neg h]
        rfl

/-- The loop started from the zero state performs exactly the adjacent
same-set updates. -/
theorem siblingsLoop_eq_applyPairs (rows : List Photo) (photos : List Photo) :
    siblingsLoop rows 0 0 photos = applyPairs (consPairs rows) photos := by
  cases rows with
  | nil => rfl
  | cons a rest =>
      rw [siblingsLoop_cons, if_neg (by simp)]
      rw [siblingsLoop_eq_applyPairs_aux rest a photos]

theorem applyPair_eq_map (photos : List Photo) (pr : Nat × Nat) :
    applyPair photos pr = photos.map (pairStep pr) := by
  unfold applyPair setPrev setNext
  rw [List.map_map]
  apply List.map_congr_left
  intro q _
  dsimp only [Function.comp]
  unfold pairStep
  by_cases h2 : q.id = pr.2 <;> by_cases h1 : q.id = pr.1
  · simp only [if_pos h2]
  · simp only [if_pos h2]
  · simp only [if_neg h2]
  · simp only [if_neg h2, if_neg h1]

/-- Applying the pair updates to the table is applying them to each row. -/
theorem applyPairs_eq_map (prs : List (Nat × Nat)) (photos : List Photo) :
    applyPairs prs photos = photos.map (applyToPhoto prs) := by
  induction prs generalizing photos with
  | nil =>
      show photos = photos.map (applyToPhoto [])
      have h : photos.map (applyToPhoto []) = photos.map id :=
        List.map_congr_left (fun q _ => rfl)
      rw [h, List.map_id]
  | cons pr rest ih =>
      show applyPairs rest (applyPair photos pr) = _
      rw [ih, applyPair_eq_map, List.map_map]
      exact List.map_congr_left (fun q _ => rfl)

/-- A photo row with both sibling links erased: the part of the row the
sibling phase is not allowed to touch. -/
def chainFree (p : Photo) : Photo :=
  { p with prev_photo_id := none, next_photo_id := none }

/-- SELECT ... FROM photos WHERE id = i (ids are unique in the table). -/
def photoById (photos : List Photo) (i : Nat) : Option Photo :=
  photos.find? (fun p => p.id = i)

/-- The next_photo_id column of the row with id i. -/
def nextIdOf (photos : List Photo) (i : Nat) : Option Nat :=
  (photoById photos i).bind Photo.next_photo_id

/-- The prev_photo_id column of the row with id i. -/
def prevIdOf (photos : List Photo) (i : Nat) : Option Nat :=
  (photoById photos i).bind Photo.prev_photo_id

theorem pairStep_id (pr : Nat × Nat) (q : Photo) : (pairStep pr q).id = q.id := by
  unfold pairStep
  by_cases h1 : q.id = pr.1 <;> by_cases h2 : q.id = pr.2
  · rw [if_pos h1, if_pos h2]
  · rw [if_pos h1, if_neg h2]
  · rw [if_neg h1, if_pos h2]
  · rw [if_neg h1, if_neg h2]

theorem pairStep_chainFree (pr : Nat × Nat) (q : Photo) :
    chainFree (pairStep pr q) = chainFree q := by
  unfold pairStep chainFree
  by_cases h1 : q.id = pr.1 <;> by_cases h2 : q.id = pr.2
  · rw [if_pos h1, if_pos h2]
  · rw [if_pos h1, if_neg h2]
  · rw [if_neg h1, if_pos h2]
  · rw [if_neg h1, if_neg h2]

theorem pairStep_prev_of_ne (pr : Nat × Nat) (q : Photo) (h : q.id ≠ pr.2) :
    (pairStep pr q).prev_photo_id = q.prev_photo_id := by
  unfold pairStep
  by_cases h1 : q.id = pr.1
  · rw [if_pos h1, if_neg h]
  · rw [if_neg h1, if_neg h]

theorem pairStep_prev_of_eq (pr : Nat × Nat) (q : Photo) (h : q.id = pr.2) :
    (pairStep pr q).prev_photo_id = some pr.1 := by
  unfold pairStep
  by_cases h1 : q.id = pr.1
  · rw [if_pos h1, if_pos h]
  · rw [if_neg h1, if_pos h]

theorem pairStep_next_of_ne (pr : Nat × Nat) (q : Photo) (h : q.id ≠ pr.1) :
    (pairStep pr q).next_photo_id = q.next_photo_id := by
  unfold pairStep
  by_cases h2 : q.id = pr.2
  · rw [if_neg h, if_pos h2]
  · rw [if_neg h, if_neg h2]

theorem pairStep_next_of_eq (pr : Nat × Nat) (q : Photo) (h : q.id = pr.1) :
    (pairStep pr q).next_photo_id = some pr.2 := by
  unfold pairStep
  by_cases h2 : q.id = pr.2
  · rw [if_pos h, if_pos h2]
  · rw [if_pos h, if_neg h2]

theorem applyToPhoto_cons (pr : Nat × Nat) (rest : List (Nat × Nat)) (q : Photo) :
    applyToPhoto (pr :: rest) q = applyToPhoto rest (pairStep pr q) := rfl

theorem applyToPhoto_id (prs : List (Nat × Nat)) (q : Photo) :
    (applyToPhoto prs q).id = q.id := by
  induction prs generalizing q with
  | nil => rfl
  | cons pr rest ih => rw [applyToPhoto_cons, ih, pairStep_id]

theorem applyToPhoto_chainFree (prs : List (Nat × Nat)) (q : Photo) :
    chainFree (applyToPhoto prs q) = chainFree q := by
  induction prs generalizing q with
  | nil => rfl
  | cons pr rest ih => rw [applyToPhoto_cons, ih, pairStep_chainFree]

theorem applyToPhoto_prev_of_not_mem (prs : List (Nat × Nat)) (q : Photo)
    (h : q.id ∉ prs.map Prod.snd) :
    (applyToPhoto prs q).prev_photo_id = q.prev_photo_id := by
  induction prs generalizing q with
  | nil => rfl
  | cons pr rest ih =>
      rw [applyToPhoto_cons]
      have hne : q.id ≠ pr.2 := fun hc => h (by simp [hc])
      have hrest : q.id ∉ rest.map Prod.snd := fun hc => h (by simp [hc])
      rw [ih _ (by rwa [pairStep_id]), pairStep_prev_of_ne _ _ hne]

theorem applyToPhoto_next_of_not_mem (prs : List (Nat × Nat)) (q : Photo)
    (h : q.id ∉ prs.map Prod.fst) :
    (applyToPhoto prs q).next_photo_id = q.next_photo_id := by
  induction prs generalizing q with
  | nil => rfl
  | cons pr rest ih =>
      rw [applyToPhoto_cons]
      have hne : q.id ≠ pr.1 := fun hc => h (by simp [hc])
      have hrest : q.id ∉ rest.map Prod.fst := fun hc => h (by simp [hc])
      rw [ih _ (by rwa [pairStep_id]), pairStep_next_of_ne _ _ hne]

theorem applyToPhoto_prev_of_mem (prs : List (Nat × Nat)) (q : Photo) (x : Nat)
    (hmem : (x, q.id) ∈ prs) (hnd : (prs.map Prod.snd).Nodup) :
    (applyToPhoto prs q).prev_photo_id = some x := by
  induction prs generalizing q with
  | nil => cases hmem
  | cons pr rest ih =>
      rw [List.map_cons, List.nodup_cons] at hnd
      rw [applyToPhoto_cons]
      rcases List.mem_cons.mp hmem with h | h
      · have h2 : q.id = pr.2 := by rw [← h]
        have hnotin : q.id ∉ rest.map Prod.snd := by rw [h2]; exact hnd.1
        have h1 : x = pr.1 := by rw [← h]
        rw [applyToPhoto_prev_of_not_mem _ _ (by rwa [pairStep_id]),
          pairStep_prev_of_eq _ _ h2, h1]
      · exact ih (pairStep pr q) (by rw [pairStep_id]; exact h) hnd.2

theorem applyToPhoto_next_of_mem (prs : List (Nat × Nat)) (q : Photo) (y : Nat)
    (hmem : (q.id, y) ∈ prs) (hnd : (prs.map Prod.fst).Nodup) :
    (applyToPhoto prs q).next_photo_id = some y := by
  induction prs generalizing q with
  | nil => cases hmem
  | cons pr rest ih =>
      rw [List.map_cons, List.nodup_cons] at hnd
      rw [applyToPhoto_cons]
      rcases List.mem_cons.mp hmem with h | h
      · have h1 : q.id = pr.1 := by rw [← h]
        have hnotin : q.id ∉ rest.map Prod.fst := by rw [h1]; exact hnd.1
        have h2 : y = pr.2 := by rw [← h]
        rw [applyToPhoto_next_of_not_mem _ _ (by rwa [pairStep_id]),
          pairStep_next_of_eq _ _ h1, h2]
      · exact ih (pairStep pr q) (by rw [pairStep_id]; exact h) hnd.2

theorem photoById_of_mem_nodup {photos : List Photo} {q : Photo}
    (hnd : (photos.map Photo.id).Nodup) (hq : q ∈ photos) :
    photoById photos q.id = some q := by
  induction photos with
  | nil => cases hq
  | cons x rest ih =>
      rw [List.map_cons, List.nodup_cons] at hnd
      rcases List.mem_cons.mp hq with h | h
      · subst h
        simp [photoById, List.find?]
      · have hxid : x.id ≠ q.id := by
          intro hc
          exact hnd.1 (hc ▸ List.mem_map.mpr ⟨q, h, rfl⟩)
        have := ih hnd.2 h
        simpa [photoById, List.find?, hxid] using this

/-- Looking a row up in the mapped table is mapping the looked-up row, for a
row transformation that does not change ids. -/
theorem photoById_map (photos : List Photo) (f : Photo → Photo)
    (hf : ∀ q, (f q).id = q.id) (i : Nat) :
    photoById (photos.map f) i = (photoById photos i).map f := by
  unfold photoById
  induction photos with
  | nil => rfl
  | cons x rest ih =>
      by_cases h : x.id = i
      · simp [List.find?, hf, h]
      · simp only [List.map_cons, List.find?]
        rw [show (decide ((f x).id = i)) = false by simp [hf, h],
          show (decide (x.id = i)) = false by simp [h]]
        exact ih

theorem nullFirstLE_refl (a : Option String) : nullFirstLE a a = true := by
  cases a with
  | none => rfl
  | some x => exact strLE_refl x

theorem nullFirstLE_total (a b : Option String) :
    nullFirstLE a b = true ∨ nullFirstLE b a = true := by
  cases a with
  | none => exact Or.inl rfl
  | some x =>
      cases b with
      | none => exact Or.inr rfl
      | some y =>
          exact strLE_total x y

theorem nullFirstLE_trans {a b c : Option String}
    (h1 : nullFirstLE a b = true) (h2 : nullFirstLE b c = true) :
    nullFirstLE a c = true := by
  cases a with
  | none => rfl
  | some x =>
      cases b with
      | none => exact absurd h1 (by simp [nullFirstLE])
      | some y =>
          cases c with
          | none => exact absurd h2 (by simp [nullFirstLE])
          | some z => exact strLE_trans h1 h2

theorem nullFirstLE_antisymm {a b : Option String}
    (h1 : nullFirstLE a b = true) (h2 : nullFirstLE b a = true) : a = b := by
  cases a with
  | none =>
      cases b with
      | none => rfl
      | some y => exact absurd h2 (by simp [nullFirstLE])
  | some x =>
      cases b with
      | none => exact absurd h1 (by simp [nullFirstLE])
      | some y => exact congrArg some (strLE_antisymm h1 h2)

theorem photoLE_set_le {a b : Photo} (h : photoLE a b = true) :
    a.set_id ≤ b.set_id := by
  unfold photoLE at h
  by_cases hs : a.set_id = b.set_id
  · exact le_of_eq hs
  · rw [if_neg hs] at h
    exact le_of_lt (by simpa using h)

theorem photoLE_ts {a b : Photo} (h : photoLE a b = true)
    (hs : a.set_id = b.set_id) : nullFirstLE a.taken_at b.taken_at = true := by
  unfold photoLE at h
  rw [if_pos hs] at h
  by_cases ht : a.taken_at = b.taken_at
  · rw [ht]; exact nullFirstLE_refl _
  · rwa [if_neg ht] at h

theorem photoLE_id_le {a b : Photo} (h : photoLE a b = true)
    (hs : a.set_id = b.set_id) (ht : a.taken_at = b.taken_at) :
    a.id ≤ b.id := by
  unfold photoLE at h
  rw [if_pos hs, if_pos ht] at h
  simpa using h

theorem photoLE_total (a b : Photo) : photoLE a b || photoLE b a := by
  rw [Bool.or_eq_true]
  unfold photoLE
  by_cases hs : a.set_id = b.set_id
  · rw [if_pos hs, if_pos hs.symm]
    by_cases ht : a.taken_at = b.taken_at
    · rw [if_pos ht, if_pos ht.symm]
      rcases Nat.le_total a.id b.id with h | h
      · exact Or.inl (by simpa using h)
      · exact Or.inr (by simpa using h)
    · rw [if_neg ht, if_neg (fun hc => ht hc.symm)]
      exact nullFirstLE_total _ _
  · rw [if_neg hs, if_neg (fun hc => hs hc.symm)]
    rcases Nat.lt_or_ge a.set_id b.set_id with h | h
    · exact Or.inl (by simpa using h)
    · exact Or.inr (by simp [Nat.lt_of_le_of_ne h (fun hc => hs hc.symm)])

theorem photoLE_trans (a b c : Photo) (h1 : photoLE a b = true)
    (h2 : photoLE b c = true) : photoLE a c = true := by
  have hab := photoLE_set_le h1
  have hbc := photoLE_set_le h2
  by_cases hs : a.set_id = c.set_id
  · have hsb : a.set_id = b.set_id := by omega
    have hsb2 : b.set_id = c.set_id := by omega
    have ht1 := photoLE_ts h1 hsb
    have ht2 := photoLE_ts h2 hsb2
    unfold photoLE
    rw [if_pos hs]
    by_cases ht : a.taken_at = c.taken_at
    · rw [if_pos ht]
      have htb : a.taken_at = b.taken_at := by
        apply nullFirstLE_antisymm ht1
        rw [ht]
        exact ht2
      have htb2 : b.taken_at = c.taken_at := by rw [← htb, ht]
      have hid1 := photoLE_id_le h1 hsb htb
      have hid2 := photoLE_id_le h2 hsb2 htb2
      simp
      omega
    · rw [if_neg ht]
      exact nullFirstLE_trans ht1 ht2
  · unfold photoLE
    rw [if_neg hs]
    simp
    omega

instance photoLEP.instIsTotal : IsTotal Photo photoLEP :=
  ⟨fun a b => by
    have h := photoLE_total a b
    rw [Bool.or_eq_true] at h
    exact h⟩

instance photoLEP.instIsTrans : IsTrans Photo photoLEP :=
  ⟨fun a b c h1 h2 => photoLE_trans a b c h1 h2⟩

/-- The ordered row sequence is a permutation of the photos table. -/
theorem sortedPhotos_perm (l : List Photo) : (sortedPhotos l).Perm l :=
  List.perm_insertionSort photoLEP l

/-- The ordered row sequence is sorted under the ORDER BY key. -/
theorem sortedPhotos_pairwise (l : List Photo) :
    (sortedPhotos l).Pairwise (fun a b => photoLE a b = true) :=
  List.sorted_insertionSort photoLEP l

/-- Every linked pair comes from two adjacent rows of the ordered sequence
that share a set, the first having a positive id. -/
theorem consPairs_mem_infix :
    ∀ {l : List Photo} {x y : Nat}, (x, y) ∈ consPairs l →
      ∃ a b, [a, b] <:+: l ∧ a.id = x ∧ b.id = y ∧
        b.set_id = a.set_id ∧ 0 < a.id := by
  intro l
  induction l with
  | nil => intro x y h; cases h
  | cons a rest ih =>
      intro x y h
      cases rest with
      | nil => cases h
      | cons b rest' =>
          rw [consPairs_cons_cons] at h
          rcases List.mem_append.mp h with h | h
          · by_cases hc : b.set_id = a.set_id ∧ 0 < a.id
            · rw [if_pos hc] at h
              rcases List.mem_singleton.mp h with h
              refine ⟨a, b, ?_, ?_, ?_, hc.1, hc.2⟩
              · exact ⟨[], rest', rfl⟩
              · exact (congrArg Prod.fst h).symm
              · exact (congrArg Prod.snd h).symm
            · rw [if_neg hc] at h; cases h
          · obtain ⟨u, v, huv, hx, hy, hset, hpos⟩ := ih h
            obtain ⟨s, t, hstv⟩ := huv
            refine ⟨u, v, ⟨a :: s, t, ?_⟩, hx, hy, hset, hpos⟩
            rw [← hstv]
            simp [List.cons_append]

/-- Conversely, every two adjacent same-set rows (first id positive) are
linked. -/
theorem mem_consPairs_of_infix :
    ∀ {l : List Photo} {a b : Photo}, [a, b] <:+: l →
      b.set_id = a.set_id → 0 < a.id → (a.id, b.id) ∈ consPairs l := by
  intro l
  induction l with
  | nil =>
      intro a b h _ _
      have := h.length_le
      simp at this
  | cons c rest ih =>
      intro a b h hset hpos
      obtain ⟨s, t, hst⟩ := h
      cases s with
      | nil =>
          have hst2 : a :: (b :: t) = c :: rest := by
            rw [← hst]
            simp [List.cons_append]
          injection hst2 with h1 h2
          subst h1
          subst h2
          rw [consPairs_cons_cons, if_pos ⟨hset, hpos⟩]
          exact List.mem_append_left _ (List.mem_singleton.mpr rfl)
      | cons e s' =>
          have hst2 : e :: (s' ++ [a, b] ++ t) = c :: rest := by
            rw [← hst]
            simp [List.cons_append]
          injection hst2 with h1 h2
          have hrest : [a, b] <:+: rest := ⟨s', t, h2⟩
          cases rest with
          | nil =>
              have := hrest.length_le
              simp at this
          | cons d rest' =>
              rw [consPairs_cons_cons]
              exact List.mem_append_right _ (ih hrest hset hpos)

theorem infix_cons_of_infix {α : Type} {l₁ l : List α} {c : α}
    (h : l₁ <:+: l) : l₁ <:+: c :: l := by
  obtain ⟨s, t, hst⟩ := h
  exact ⟨c :: s, t, by rw [← hst]; simp [List.cons_append]⟩

theorem consPairs_fst_subset {l : List Photo} {x : Nat}
    (h : x ∈ (consPairs l).map Prod.fst) : x ∈ l.map Photo.id := by
  obtain ⟨⟨x1, y1⟩, hmem, hx⟩ := List.mem_map.mp h
  obtain ⟨a, b, hinf, ha, hb, _, _⟩ := consPairs_mem_infix hmem
  exact List.mem_map.mpr ⟨a, hinf.subset (by simp), by rw [ha]; exact hx⟩

theorem consPairs_snd_subset :
    ∀ {c : Photo} {rest : List Photo} {y : Nat},
      y ∈ (consPairs (c :: rest)).map Prod.snd → y ∈ rest.map Photo.id := by
  intro c rest
  induction rest generalizing c with
  | nil => intro y h; simp [consPairs] at h
  | cons b rest' ih =>
      intro y h
      rw [consPairs_cons_cons, List.map_append] at h
      rcases List.mem_append.mp h with h | h
      · by_cases hc : b.set_id = c.set_id ∧ 0 < c.id
        · rw [if_pos hc] at h
          have : y = b.id := by simpa using h
          rw [this]
          simp
        · rw [if_neg hc] at h; simp at h
      · have := ih h
        rw [List.map_cons]
        exact List.mem_cons_of_mem _ this

theorem consPairs_fst_nodup :
    ∀ {l : List Photo}, (l.map Photo.id).Nodup →
      ((consPairs l).map Prod.fst).Nodup := by
  intro l
  induction l with
  | nil => intro _; simp [consPairs]
  | cons a rest ih =>
      intro hnd
      rw [List.map_cons, List.nodup_cons] at hnd
      cases rest with
      | nil => simp [consPairs]
      | cons b rest' =>
          rw [consPairs_cons_cons, List.map_append]
          by_cases hc : b.set_id = a.set_id ∧ 0 < a.id
          · rw [if_pos hc]
            show (a.id :: (consPairs (b :: rest')).map Prod.fst).Nodup
            exact List.nodup_cons.mpr
              ⟨fun hmem => hnd.1 (consPairs_fst_subset hmem), ih hnd.2⟩
          · rw [if_neg hc]
            show (([] : List Nat) ++ (consPairs (b :: rest')).map Prod.fst).Nodup
            rw [List.nil_append]
            exact ih hnd.2

theorem consPairs_snd_nodup :
    ∀ {l : List Photo}, (l.map Photo.id).Nodup →
      ((consPairs l).map Prod.snd).Nodup := by
  intro l
  induction l with
  | nil => intro _; simp [consPairs]
  | cons a rest ih =>
      intro hnd
      rw [List.map_cons, List.nodup_cons] at hnd
      cases rest with
      | nil => simp [consPairs]
      | cons b rest' =>
          have hnd' := hnd.2
          rw [List.map_cons, List.nodup_cons] at hnd'
          rw [consPairs_cons_cons, List.map_append]
          by_cases hc : b.set_id = a.set_id ∧ 0 < a.id
          · rw [if_pos hc]
            show (b.id :: (consPairs (b :: rest')).map Prod.snd).Nodup
            exact List.nodup_cons.mpr
              ⟨fun hmem => hnd'.1 (consPairs_snd_subset hmem), ih hnd.2⟩
          · rw [if_neg hc]
            show (([] : List Nat) ++ (consPairs (b :: rest')).map Prod.snd).Nodup
            rw [List.nil_append]
            exact ih hnd.2

/-- If the first filtered element below a satisfying head c exists, it is the
very next row: an order-convex predicate cannot skip rows. -/
theorem head_filter_is_head {P : Photo → Bool}
    (hP : ∀ a x b, photoLE a x = true → photoLE x b = true →
      P a = true → P b = true → P x = true) :
    ∀ {rest : List Photo} {c b : Photo},
      (∀ x ∈ rest, photoLE c x = true) →
      rest.Pairwise (fun a b => photoLE a b = true) →
      P c = true → (rest.filter P).head? = some b →
      ∃ rest', rest = b :: rest' := by
  intro rest
  induction rest with
  | nil => intro c b _ _ _ h; simp at h
  | cons r rs ih =>
      intro c b hc hpw hPc hhead
      by_cases hPr : P r = true
      · rw [List.filter_cons_of_pos hPr] at hhead
        have : r = b := by simpa using hhead
        exact ⟨rs, by rw [this]⟩
      · rw [List.filter_cons_of_neg (by simpa using hPr)] at hhead
        exfalso
        have hbmem : b ∈ rs.filter P := by
          cases hf : rs.filter P with
          | nil => rw [hf] at hhead; simp at hhead
          | cons u us =>
              rw [hf] at hhead
              have hub : u = b := by simpa using hhead
              rw [← hub]
              simp
        have hPb : P b = true := List.of_mem_filter hbmem
        have hbrs : b ∈ rs := List.mem_of_mem_filter hbmem
        rw [List.pairwise_cons] at hpw
        exact hPr (hP c r b (hc r (by simp)) (hpw.1 b hbrs) hPc hPb)

theorem mem_of_head?_eq_some {α : Type} {l : List α} {a : α}
    (h : l.head? = some a) : a ∈ l := by
  cases l with
  | nil => simp at h
  | cons x xs =>
      have hx : x = a := by simpa using h
      rw [← hx]
      simp

theorem mem_of_getLast?_eq_some {α : Type} {l : List α} {a : α}
    (h : l.getLast? = some a) : a ∈ l := by
  induction l with
  | nil => simp at h
  | cons x xs ih =>
      cases xs with
      | nil =>
          have hx : x = a := by simpa using h
          rw [← hx]
          simp
      | cons y ys =>
          have h2 : (y :: ys).getLast? = some a := by
            simpa [List.getLast?_cons_cons] using h
          exact List.mem_cons_of_mem _ (ih h2)

theorem rel_of_infix_pair {α : Type} (R : α → α → Prop) {l : List α} {a b : α}
    (h : [a, b] <:+: l) (hp : l.Pairwise R) : R a b := by
  have h2 := hp.sublist h.sublist
  rw [List.pairwise_cons] at h2
  exact h2.1 b (by simp)

/-- Adjacent elements of the filtered ordered sequence both satisfy the
predicate and are adjacent rows of the full ordered sequence, for an
order-convex predicate. -/
theorem chain_infix_filter {P : Photo → Bool}
    (hP : ∀ a x b, photoLE a x = true → photoLE x b = true →
      P a = true → P b = true → P x = true) :
    ∀ {l : List Photo}, l.Pairwise (fun a b => photoLE a b = true) →
      (l.filter P).Chain' (fun a b =>
        P a = true ∧ P b = true ∧ [a, b] <:+: l) := by
  intro l
  induction l with
  | nil => intro _; simp
  | cons c rest ih =>
      intro hsorted
      rw [List.pairwise_cons] at hsorted
      by_cases hPc : P c = true
      · rw [List.filter_cons_of_pos hPc]
        apply List.chain'_cons'.mpr
        refine ⟨?_, ?_⟩
        · intro b hb
          have hPb : P b = true :=
            List.of_mem_filter (mem_of_head?_eq_some hb)
          obtain ⟨rest', hr⟩ :=
            head_filter_is_head hP hsorted.1 hsorted.2 hPc hb
          rw [hr]
          exact ⟨hPc, hPb, [], rest', rfl⟩
        · exact (ih hsorted.2).imp
            (fun _ _ h => ⟨h.1, h.2.1, infix_cons_of_infix h.2.2⟩)
      · rw [List.filter_cons_of_neg (by simpa using hPc)]
        exact (ih hsorted.2).imp
          (fun _ _ h => ⟨h.1, h.2.1, infix_cons_of_infix h.2.2⟩)

/-- The phase A row filter for one set: belongs to set sid and carries a
capture timestamp. -/
def tsPhoto (sid : Nat) (p : Photo) : Bool :=
  decide (p.set_id = sid) && p.taken_at.isSome

/-- The timestamped photos of set sid, in the order phase A reads them. -/
def tsSeq (s : Store) (sid : Nat) : List Photo :=
  (sortedPhotos s.photos).filter (tsPhoto sid)

theorem tsPhoto_iff {sid : Nat} {p : Photo} :
    tsPhoto sid p = true ↔ p.set_id = sid ∧ p.taken_at.isSome = true := by
  rw [tsPhoto, Bool.and_eq_true, decide_eq_true_eq]

theorem tsPhoto_convex (sid : Nat) :
    ∀ a x b, photoLE a x = true → photoLE x b = true →
      tsPhoto sid a = true → tsPhoto sid b = true → tsPhoto sid x = true := by
  intro a x b hax hxb ha hb
  rw [tsPhoto_iff] at ha hb ⊢
  have h1 := photoLE_set_le hax
  have h2 := photoLE_set_le hxb
  have ha1 := ha.1
  have hb1 := hb.1
  have hset : x.set_id = sid := by omega
  refine ⟨hset, ?_⟩
  have hts := photoLE_ts hax (by rw [ha1, hset])
  cases hta : a.taken_at with
  | none =>
      rw [hta] at ha
      simp at ha
  | some v =>
      rw [hta] at hts
      cases hx : x.taken_at with
      | none => rw [hx] at hts; simp [nullFirstLE] at hts
      | some w => simp

/-- C2.  After the sibling-chain phase of the Linker, for every set the
timestamped photos, listed in the phase ordering, (a) are exactly the
photos of that set carrying a timestamp, (b) appear in non-decreasing
timestamp order, (c) are chained pairwise: each one points by next to its
successor and each successor points back by previous, so following next
from the earliest visits all of them and following previous from the latest
reverses the walk, and (d) the latest carries no next link, so the walk
terminates there.  Premises: the table is a fresh Scanner output (all
sibling links NULL, rowids unique and positive). -/
theorem linker_sibling_chain (s : Store) (sid : Nat)
    (hfresh : ∀ p ∈ s.photos, p.prev_photo_id = none ∧ p.next_photo_id = none)
    (hnodup : (s.photos.map Photo.id).Nodup)
    (hpos : ∀ p ∈ s.photos, 0 < p.id)
    (_hk : 2 ≤ (tsSeq s sid).length) :
    (tsSeq s sid).Perm (s.photos.filter (tsPhoto sid)) ∧
    (tsSeq s sid).Pairwise (fun a b => nullFirstLE a.taken_at b.taken_at = true) ∧
    (tsSeq s sid).Chain' (fun a b =>
      nextIdOf (updatePhotoSiblings s).photos a.id = some b.id ∧
      prevIdOf (updatePhotoSiblings s).photos b.id = some a.id) ∧
    (∀ p, (tsSeq s sid).getLast? = some p →
      nextIdOf (updatePhotoSiblings s).photos p.id = none) := by
  have hperm : (sortedPhotos s.photos).Perm s.photos := sortedPhotos_perm _
  have hpw : (sortedPhotos s.photos).Pairwise (fun a b => photoLE a b = true) :=
    sortedPhotos_pairwise _
  have hndL : ((sortedPhotos s.photos).map Photo.id).Nodup :=
    ((hperm.map Photo.id).nodup_iff).mpr hnodup
  have hout : (updatePhotoSiblings s).photos =
      s.photos.map (applyToPhoto (consPairs (sortedPhotos s.photos))) := by
    show siblingsLoop (sortedPhotos s.photos) 0 0 s.photos = _
    rw [siblingsLoop_eq_applyPairs, applyPairs_eq_map]
  have hlook : ∀ q ∈ s.photos,
      photoById (updatePhotoSiblings s).photos q.id =
        some (applyToPhoto (consPairs (sortedPhotos s.photos)) q) := by
    intro q hq
    rw [hout, photoById_map _ _ (fun q => applyToPhoto_id _ q),
      photoById_of_mem_nodup hnodup hq]
    rfl
  have hfstnd := consPairs_fst_nodup hndL
  have hsndnd := consPairs_snd_nodup hndL
  refine ⟨hperm.filter _, ?_, ?_, ?_⟩
  · have hsub : (tsSeq s sid).Pairwise (fun a b => photoLE a b = true) :=
      hpw.sublist (List.filter_sublist _)
    refine List.Pairwise.imp_of_mem ?_ hsub
    intro a b ha hb hab
    have hPa := tsPhoto_iff.mp (List.of_mem_filter ha)
    have hPb := tsPhoto_iff.mp (List.of_mem_filter hb)
    exact photoLE_ts hab (by rw [hPa.1, hPb.1])
  · refine (chain_infix_filter (tsPhoto_convex sid) hpw).imp ?_
    intro a b h
    obtain ⟨hPa, hPb, hinf⟩ := h
    have haL : a ∈ sortedPhotos s.photos := hinf.subset (by simp)
    have hbL : b ∈ sortedPhotos s.photos := hinf.subset (by simp)
    have haP : a ∈ s.photos := hperm.subset haL
    have hbP : b ∈ s.photos := hperm.subset hbL
    rw [tsPhoto_iff] at hPa hPb
    have hset : b.set_id = a.set_id := by rw [hPa.1, hPb.1]
    have hpair : (a.id, b.id) ∈ consPairs (sortedPhotos s.photos) :=
      mem_consPairs_of_infix hinf hset (hpos a haP)
    constructor
    · rw [nextIdOf, hlook a haP]
      exact applyToPhoto_next_of_mem _ _ _ hpair hfstnd
    · rw [prevIdOf, hlook b hbP]
      exact applyToPhoto_prev_of_mem _ _ _ hpair hsndnd
  · intro p hlast
    have hpmem : p ∈ tsSeq s sid := mem_of_getLast?_eq_some hlast
    have hpL : p ∈ sortedPhotos s.photos := List.mem_of_mem_filter hpmem
    have hpP : p ∈ s.photos := hperm.subset hpL
    have hPpB : tsPhoto sid p = true := List.of_mem_filter hpmem
    have hPp := tsPhoto_iff.mp hPpB
    have hnotfst : p.id ∉ (consPairs (sortedPhotos s.photos)).map Prod.fst := by
      intro hmem
      obtain ⟨⟨x1, y1⟩, hpr, hx⟩ := List.mem_map.mp hmem
      obtain ⟨a, b, hinf, ha, hb, hsetab, hposa⟩ := consPairs_mem_infix hpr
      have haid : a.id = p.id := by rw [ha]; exact hx
      have haL : a ∈ sortedPhotos s.photos := hinf.subset (by simp)
      have hap : a = p := List.inj_on_of_nodup_map hndL haL hpL haid
      subst hap
      have hrel : photoLE a b = true :=
        rel_of_infix_pair (fun x y => photoLE x y = true) hinf hpw
      have hPbB : tsPhoto sid b = true := by
        rw [tsPhoto_iff]
        refine ⟨by rw [hsetab, hPp.1], ?_⟩
        have hts := photoLE_ts hrel hsetab.symm
        cases hpta : a.taken_at with
        | none =>
            rw [hpta] at hPp
            simp at hPp
        | some v =>
            rw [hpta] at hts
            cases hbta : b.taken_at with
            | none => rw [hbta] at hts; simp [nullFirstLE] at hts
            | some w => simp
      obtain ⟨u, v, huv⟩ := hinf
      have hdec : tsSeq s sid =
          u.filter (tsPhoto sid) ++ a :: b :: v.filter (tsPhoto sid) := by
        rw [tsSeq, ← huv]
        simp [List.filter_append, hPpB, hPbB]
      have hndT : (tsSeq s sid).Nodup := by
        have h1 : ((tsSeq s sid).map Photo.id).Nodup :=
          (((List.filter_sublist _).map Photo.id).nodup hndL)
        exact h1.of_map _
      rw [hdec] at hndT hlast
      have hlast2 : (b :: v.filter (tsPhoto sid)).getLast? = some a := by
        rw [List.getLast?_append_cons, List.getLast?_cons_cons] at hlast
        exact hlast
      have hamem : a ∈ b :: v.filter (tsPhoto sid) :=
        mem_of_getLast?_eq_some hlast2
      have hnd2 := (List.nodup_append.mp hndT).2.1
      rw [List.nodup_cons] at hnd2
      exact hnd2.1 hamem
    rw [nextIdOf, hlook p hpP]
    show (applyToPhoto (consPairs (sortedPhotos s.photos)) p).next_photo_id = none
    rw [applyToPhoto_next_of_not_mem _ _ hnotfst]
    exact (hfresh p hpP).2

/-! ## Linker phase B: set aggregates (updateSets in photos.go) -/

/-- The distinct set ids appearing in the photos table, in the ascending
order the GROUP BY set_id scan over photos_set_id_index produces them. -/
def setIds (photos : List Photo) : List Nat :=
  ((photos.map Photo.set_id).dedup).insertionSort (fun a b => a ≤ b)

/-- Ascending rowid order. -/
def idLEP (a b : Photo) : Prop :=
  a.id ≤ b.id

instance idLEP.instDecidable (a b : Photo) : Decidable (idLEP a b) := by
  unfold idLEP
  infer_instance

instance idLEP.instIsTotal : IsTotal Photo idLEP :=
  ⟨fun a b => Nat.le_total a.id b.id⟩

instance idLEP.instIsTrans : IsTrans Photo idLEP :=
  ⟨fun _ _ _ h1 h2 => Nat.le_trans h1 h2⟩

/-- The rows of one set_id group in the order the photos_set_id_index scan
visits them: ascending rowid. -/
def groupOf (photos : List Photo) (sid : Nat) : List Photo :=
  (photos.filter (fun p => p.set_id = sid)).insertionSort idLEP

/-- MIN(taken_at) over one group: the least non-NULL timestamp, NULL when
every row is NULL. -/
def minTakenAt (g : List Photo) : Option String :=
  match g.filterMap Photo.taken_at with
  | [] => none
  | x :: xs => some (xs.foldl minStr x)

/-- The bare id column SQLite returns for SELECT id, set_id, MIN(taken_at)
FROM photos GROUP BY set_id: the first row of the group scan achieving the
minimum (so the least rowid among the tied rows); when every taken_at of the
group is NULL the min accumulator never fires and the last scanned row's id
comes back (observed SQLite behaviour — no claim proved here depends on
which row of the group is picked in that corner). -/
def repId (g : List Photo) : Option Nat :=
  match minTakenAt g with
  | some m => (g.find? (fun p => p.taken_at = some m)).map Photo.id
  | none => (g.getLast?).map Photo.id

/-- SELECT COUNT(*) FROM photos WHERE set_id = sid. -/
def photosCount (photos : List Photo) (sid : Nat) : Nat :=
  (photos.filter (fun p => p.set_id = sid)).length

/-- The UPDATE sets SET photos_count = ?, taken_at = ?, thumb_photo_id = ?
WHERE id = ? issued for one GROUP BY row, applied to one sets row. -/
def setUpdateRow (photos : List Photo) (sid : Nat) (r : SetRow) : SetRow :=
  if r.id = sid then
    { r with photos_count := some (photosCount photos sid),
             taken_at := minTakenAt (groupOf photos sid),
             thumb_photo_id := repId (groupOf photos sid) }
  else r

/-- One UPDATE statement applied to the sets table. -/
def applySetUpdate (photos : List Photo) (sid : Nat) (sets : List SetRow) :
    List SetRow :=
  sets.map (setUpdateRow photos sid)

/-- updateSets in photos.go: one UPDATE per GROUP BY row, in group order. -/
def updateSets (s : Store) : Store :=
  { s with
      sets := (setIds s.photos).foldl
        (fun sets sid => applySetUpdate s.photos sid sets) s.sets }

/-- The effect of the whole group loop on one sets row. -/
def setUpdatesFor (photos : List Photo) (sids : List Nat) (r : SetRow) : SetRow :=
  sids.foldl (fun r sid => setUpdateRow photos sid r) r

theorem foldl_applySetUpdate_eq_map (photos : List Photo) :
    ∀ (sids : List Nat) (sets : List SetRow),
      sids.foldl (fun st sid => applySetUpdate photos sid st) sets =
        sets.map (setUpdatesFor photos sids) := by
  intro sids
  induction sids with
  | nil =>
      intro sets
      show sets = sets.map (setUpdatesFor photos [])
      have h : sets.map (setUpdatesFor photos []) = sets.map id :=
        List.map_congr_left (fun r _ => rfl)
      rw [h, List.map_id]
  | cons sid rest ih =>
      intro sets
      show rest.foldl _ (applySetUpdate photos sid sets) = _
      rw [ih]
      unfold applySetUpdate
      rw [List.map_map]
      exact List.map_congr_left (fun r _ => rfl)

theorem updateSets_sets_eq_map (s : Store) :
    (updateSets s).sets =
      s.sets.map (setUpdatesFor s.photos (setIds s.photos)) :=
  foldl_applySetUpdate_eq_map s.photos (setIds s.photos) s.sets

theorem setIds_nodup (photos : List Photo) : (setIds photos).Nodup :=
  ((List.perm_insertionSort _ _).nodup_iff).mpr (List.nodup_dedup _)

theorem mem_setIds {photos : List Photo} {sid : Nat} :
    sid ∈ setIds photos ↔ ∃ p ∈ photos, p.set_id = sid := by
  unfold setIds
  rw [(List.perm_insertionSort _ _).mem_iff, List.mem_dedup, List.mem_map]

theorem setUpdatesFor_of_not_mem (photos : List Photo) :
    ∀ (sids : List Nat) (r : SetRow), r.id ∉ sids →
      setUpdatesFor photos sids r = r := by
  intro sids
  induction sids with
  | nil => intro r _; rfl
  | cons sid rest ih =>
      intro r h
      have hne : r.id ≠ sid := fun hc => h (by simp [hc])
      show setUpdatesFor photos rest (setUpdateRow photos sid r) = r
      have hstep : setUpdateRow photos sid r = r := by
        unfold setUpdateRow
        rw [if_neg hne]
      rw [hstep]
      exact ih r (fun hc => h (List.mem_cons_of_mem _ hc))

theorem setUpdatesFor_of_mem (photos : List Photo) :
    ∀ (sids : List Nat) (r : SetRow), sids.Nodup → r.id ∈ sids →
      setUpdatesFor photos sids r =
        { r with photos_count := some (photosCount photos r.id),
                 taken_at := minTakenAt (groupOf photos r.id),
                 thumb_photo_id := repId (groupOf photos r.id) } := by
  intro sids
  induction sids with
  | nil => intro r _ h; cases h
  | cons sid rest ih =>
      intro r hnd hmem
      rw [List.nodup_cons] at hnd
      show setUpdatesFor photos rest (setUpdateRow photos sid r) = _
      by_cases h : r.id = sid
      · have hstep : setUpdateRow photos sid r =
            { r with photos_count := some (photosCount photos r.id),
                     taken_at := minTakenAt (groupOf photos r.id),
                     thumb_photo_id := repId (groupOf photos r.id) } := by
          unfold setUpdateRow
          rw [if_pos h, ← h]
        rw [hstep]
        apply setUpdatesFor_of_not_mem
        show r.id ∉ rest
        rw [h]
        exact hnd.1
      · have hstep : setUpdateRow photos sid r = r := by
          unfold setUpdateRow
          rw [if_neg h]
        rw [hstep]
        refine ih r hnd.2 ?_
        rcases List.mem_cons.mp hmem with hc | hc
        · exact absurd hc h
        · exact hc

theorem mem_groupOf {photos : List Photo} {sid : Nat} {p : Photo} :
    p ∈ groupOf photos sid ↔ p ∈ photos ∧ p.set_id = sid := by
  unfold groupOf
  rw [(List.perm_insertionSort _ _).mem_iff, List.mem_filter]
  simp

theorem groupOf_sorted (photos : List Photo) (sid : Nat) :
    (groupOf photos sid).Pairwise (fun a b => a.id ≤ b.id) :=
  List.sorted_insertionSort idLEP _

theorem foldl_minStr_head_le (x : String) (xs : List String) :
    strLE (xs.foldl minStr x) x = true := by
  induction xs generalizing x with
  | nil => exact strLE_refl x
  | cons y ys ih => exact strLE_trans (ih (minStr x y)) (minStr_le_left x y)

theorem foldl_minStr_mem (x : String) (xs : List String) :
    xs.foldl minStr x ∈ x :: xs := by
  induction xs generalizing x with
  | nil => simp
  | cons y ys ih =>
      have h := ih (minStr x y)
      show ys.foldl minStr (minStr x y) ∈ x :: y :: ys
      rcases List.mem_cons.mp h with h1 | h1
      · rw [h1]
        rcases minStr_choice x y with hc | hc <;> rw [hc] <;> simp
      · exact List.mem_cons_of_mem _ (List.mem_cons_of_mem _ h1)

theorem foldl_minStr_le_mem (x : String) (xs : List String) :
    ∀ y ∈ x :: xs, strLE (xs.foldl minStr x) y = true := by
  induction xs generalizing x with
  | nil =>
      intro y hy
      have h : y = x := by simpa using hy
      rw [h]
      exact strLE_refl x
  | cons z zs ih =>
      intro y hy
      show strLE (zs.foldl minStr (minStr x z)) y = true
      rcases List.mem_cons.mp hy with h | h
      · rw [h]
        exact strLE_trans (foldl_minStr_head_le (minStr x z) zs)
          (minStr_le_left x z)
      · rcases List.mem_cons.mp h with h2 | h2
        · rw [h2]
          exact strLE_trans (foldl_minStr_head_le (minStr x z) zs)
            (minStr_le_right x z)
        · exact ih (minStr x z) y (List.mem_cons_of_mem _ h2)

theorem minTakenAt_eq_none {g : List Photo} (h : minTakenAt g = none) :
    ∀ p ∈ g, p.taken_at = none := by
  intro p hp
  unfold minTakenAt at h
  cases hf : g.filterMap Photo.taken_at with
  | nil =>
      cases hta : p.taken_at with
      | none => rfl
      | some v =>
          have : v ∈ g.filterMap Photo.taken_at :=
            List.mem_filterMap.mpr ⟨p, hp, hta⟩
          rw [hf] at this
          cases this
  | cons x xs => rw [hf] at h; cases h

theorem minTakenAt_spec {g : List Photo} {m : String}
    (h : minTakenAt g = some m) :
    m ∈ g.filterMap Photo.taken_at ∧
      ∀ x ∈ g.filterMap Photo.taken_at, strLE m x = true := by
  unfold minTakenAt at h
  cases hf : g.filterMap Photo.taken_at with
  | nil => rw [hf] at h; cases h
  | cons x xs =>
      rw [hf] at h
      have hm : xs.foldl minStr x = m := by simpa using h
      constructor
      · rw [← hm]
        exact foldl_minStr_mem x xs
      · intro y hy
        rw [← hm]
        exact foldl_minStr_le_mem x xs y hy

theorem find?_min_of_sorted {p : Photo → Bool} :
    ∀ {l : List Photo}, l.Pairwise (fun a b => a.id ≤ b.id) →
      ∀ {c : Photo}, l.find? p = some c →
      ∀ q ∈ l, p q = true → c.id ≤ q.id := by
  intro l
  induction l with
  | nil => intro _ c hf; cases hf
  | cons x xs ih =>
      intro hpw c hf q hq hPq
      rw [List.pairwise_cons] at hpw
      by_cases hx : p x = true
      · rw [List.find?_cons_of_pos _ hx] at hf
        have hcx : x = c := by injection hf
        rcases List.mem_cons.mp hq with h | h
        · rw [← hcx, h]
        · rw [← hcx]
          exact hpw.1 q h
      · rw [List.find?_cons_of_neg _ (by simpa using hx)] at hf
        rcases List.mem_cons.mp hq with h | h
        · rw [h] at hPq
          exact absurd hPq hx
        · exact ih hpw.2 hf q h hPq

/-- C5.  After the aggregate phase, every set row (each owning at least one
photo, as every set the Scanner creates does) stores photos_count equal to
the number of photos referencing it, and taken_at equal to the least
non-NULL capture timestamp among its photos, or NULL when none of them
carries a timestamp. -/
theorem linker_set_aggregates (s : Store)
    (hne : ∀ r ∈ s.sets, ∃ p ∈ s.photos, p.set_id = r.id) :
    ∀ r ∈ (updateSets s).sets,
      r.photos_count =
        some ((s.photos.filter (fun p => p.set_id = r.id)).length) ∧
      (∀ m, r.taken_at = some m →
        (∃ p ∈ s.photos, p.set_id = r.id ∧ p.taken_at = some m) ∧
        (∀ p ∈ s.photos, p.set_id = r.id → ∀ x, p.taken_at = some x →
          strLE m x = true)) ∧
      (r.taken_at = none → ∀ p ∈ s.photos, p.set_id = r.id →
        p.taken_at = none) := by
  intro r' hr'
  rw [updateSets_sets_eq_map] at hr'
  obtain ⟨r, hr, hmap⟩ := List.mem_map.mp hr'
  have hmem : r.id ∈ setIds s.photos := mem_setIds.mpr (hne r hr)
  have hupd := setUpdatesFor_of_mem s.photos (setIds s.photos) r
    (setIds_nodup _) hmem
  rw [hupd] at hmap
  subst hmap
  refine ⟨rfl, ?_, ?_⟩
  · intro m hm
    have hm' : minTakenAt (groupOf s.photos r.id) = some m := hm
    obtain ⟨hmm, hmin⟩ := minTakenAt_spec hm'
    constructor
    · obtain ⟨p, hp, hpta⟩ := List.mem_filterMap.mp hmm
      have hpg := mem_groupOf.mp hp
      exact ⟨p, hpg.1, hpg.2, hpta⟩
    · intro p hp hps x hx
      have hpg : p ∈ groupOf s.photos r.id := mem_groupOf.mpr ⟨hp, hps⟩
      exact hmin x (List.mem_filterMap.mpr ⟨p, hpg, hx⟩)
  · intro hnone p hp hps
    have hn : minTakenAt (groupOf s.photos r.id) = none := hnone
    exact minTakenAt_eq_none hn p (mem_groupOf.mpr ⟨hp, hps⟩)

/-- C6.  After the aggregate phase, every set row (each owning at least one
photo) has its cover photo thumb_photo_id pointing at a photo belonging to
that set; when the set owns at least one timestamped photo, the cover photo
carries the least timestamp of the set and, among the photos tied at that
least timestamp, the least id. -/
theorem linker_set_cover (s : Store)
    (hne : ∀ r ∈ s.sets, ∃ p ∈ s.photos, p.set_id = r.id) :
    ∀ r ∈ (updateSets s).sets,
      (∃ c ∈ s.photos, r.thumb_photo_id = some c.id ∧ c.set_id = r.id) ∧
      (∀ p ∈ s.photos, p.set_id = r.id → ∀ v, p.taken_at = some v →
        ∃ c ∈ s.photos, r.thumb_photo_id = some c.id ∧ c.set_id = r.id ∧
          ∃ m, c.taken_at = some m ∧
            (∀ q ∈ s.photos, q.set_id = r.id → ∀ x, q.taken_at = some x →
              strLE m x = true) ∧
            (∀ q ∈ s.photos, q.set_id = r.id → q.taken_at = some m →
              c.id ≤ q.id)) := by
  intro r' hr'
  rw [updateSets_sets_eq_map] at hr'
  obtain ⟨r, hr, hmap⟩ := List.mem_map.mp hr'
  have hmem : r.id ∈ setIds s.photos := mem_setIds.mpr (hne r hr)
  have hupd := setUpdatesFor_of_mem s.photos (setIds s.photos) r
    (setIds_nodup _) hmem
  rw [hupd] at hmap
  subst hmap
  have hrep : ∀ m, minTakenAt (groupOf s.photos r.id) = some m →
      ∃ c ∈ s.photos, repId (groupOf s.photos r.id) = some c.id ∧
        c.set_id = r.id ∧ c.taken_at = some m ∧
        (∀ q ∈ s.photos, q.set_id = r.id → q.taken_at = some m →
          c.id ≤ q.id) := by
    intro m hm
    obtain ⟨hmm, hmin⟩ := minTakenAt_spec hm
    obtain ⟨p, hp, hpta⟩ := List.mem_filterMap.mp hmm
    have hsome : ((groupOf s.photos r.id).find?
        (fun p => p.taken_at = some m)).isSome = true :=
      find?_isSome_of_mem hp (by simp [hpta])
    cases hf : (groupOf s.photos r.id).find? (fun p => p.taken_at = some m) with
    | none => rw [hf] at hsome; cases hsome
    | some c =>
        have hcg : c ∈ groupOf s.photos r.id := List.mem_of_find?_eq_some hf
        have hcp := List.find?_some hf
        have hcta : c.taken_at = some m := by simpa using hcp
        have hcmem := mem_groupOf.mp hcg
        refine ⟨c, hcmem.1, ?_, hcmem.2, hcta, ?_⟩
        · unfold repId
          rw [hm]
          show Option.map Photo.id ((groupOf s.photos r.id).find?
              (fun p => p.taken_at = some m)) = some c.id
          rw [hf]
          rfl
        · intro q hq hqs hqta
          exact find?_min_of_sorted (groupOf_sorted s.photos r.id) hf q
            (mem_groupOf.mpr ⟨hq, hqs⟩) (by simp [hqta])
  constructor
  · cases hmt : minTakenAt (groupOf s.photos r.id) with
    | some m =>
        obtain ⟨c, hc, hrep', hcs, _, _⟩ := hrep m hmt
        exact ⟨c, hc, hrep', hcs⟩
    | none =>
        obtain ⟨p, hp, hps⟩ := hne r hr
        have hpg : p ∈ groupOf s.photos r.id := mem_groupOf.mpr ⟨hp, hps⟩
        cases hl : (groupOf s.photos r.id).getLast? with
        | none =>
            have : groupOf s.photos r.id = [] := by
              cases hg : groupOf s.photos r.id with
              | nil => rfl
              | cons a rest =>
                  rw [hg] at hl
                  rcases List.getLast?_eq_none_iff.mp hl with h
                  cases h
            rw [this] at hpg
            cases hpg
        | some c =>
            have hcg : c ∈ groupOf s.photos r.id := mem_of_getLast?_eq_some hl
            have hcmem := mem_groupOf.mp hcg
            refine ⟨c, hcmem.1, ?_, hcmem.2⟩
            show repId (groupOf s.photos r.id) = some c.id
            unfold repId
            rw [hmt]
            show Option.map Photo.id ((groupOf s.photos r.id).getLast?) =
              some c.id
            rw [hl]
            rfl
  · intro p hp hps v hv
    cases hmt : minTakenAt (groupOf s.photos r.id) with
    | some m =>
        obtain ⟨c, hc, hrep', hcs, hcta, htie⟩ := hrep m hmt
        refine ⟨c, hc, hrep', hcs, m, hcta, ?_, htie⟩
        intro q hq hqs x hx
        exact (minTakenAt_spec hmt).2 x
          (List.mem_filterMap.mpr ⟨q, mem_groupOf.mpr ⟨hq, hqs⟩, hx⟩)
    | none =>
        have := minTakenAt_eq_none hmt p (mem_groupOf.mpr ⟨hp, hps⟩)
        rw [this] at hv
        cases hv

theorem applyToPhoto_prev_cases (prs : List (Nat × Nat)) (q : Photo) :
    (applyToPhoto prs q).prev_photo_id = q.prev_photo_id ∨
      ∃ pr ∈ prs, (applyToPhoto prs q).prev_photo_id = some pr.1 := by
  induction prs generalizing q with
  | nil => exact Or.inl rfl
  | cons pr rest ih =>
      rw [applyToPhoto_cons]
      rcases ih (pairStep pr q) with h | h
      · by_cases h2 : q.id = pr.2
        · exact Or.inr ⟨pr, by simp, by rw [h, pairStep_prev_of_eq _ _ h2]⟩
        · exact Or.inl (by rw [h, pairStep_prev_of_ne _ _ h2])
      · obtain ⟨pr2, hpr2, hval⟩ := h
        exact Or.inr ⟨pr2, List.mem_cons_of_mem _ hpr2, hval⟩

theorem applyToPhoto_next_cases (prs : List (Nat × Nat)) (q : Photo) :
    (applyToPhoto prs q).next_photo_id = q.next_photo_id ∨
      ∃ pr ∈ prs, (applyToPhoto prs q).next_photo_id = some pr.2 := by
  induction prs generalizing q with
  | nil => exact Or.inl rfl
  | cons pr rest ih =>
      rw [applyToPhoto_cons]
      rcases ih (pairStep pr q) with h | h
      · by_cases h1 : q.id = pr.1
        · exact Or.inr ⟨pr, by simp, by rw [h, pairStep_next_of_eq _ _ h1]⟩
        · exact Or.inl (by rw [h, pairStep_next_of_ne _ _ h1])
      · obtain ⟨pr2, hpr2, hval⟩ := h
        exact Or.inr ⟨pr2, List.mem_cons_of_mem _ hpr2, hval⟩

theorem consPairs_comp_mem {l : List Photo} {pr : Nat × Nat}
    (h : pr ∈ consPairs l) :
    (∃ a ∈ l, a.id = pr.1 ∧ 0 < a.id) ∧ ∃ b ∈ l, b.id = pr.2 := by
  obtain ⟨a, b, hinf, ha, hb, _, hpos⟩ := consPairs_mem_infix h
  exact ⟨⟨a, hinf.subset (by simp), ha, ha ▸ hpos⟩,
    b, hinf.subset (by simp), hb⟩

/-- C10.  The sibling-chain phase never writes NULL into a link column: row
by row, its output keeps every non-link column unchanged, and each sibling
link is either untouched or assigned the (positive, for prev) id of some
photo of the table — in particular a link that was non-NULL before the
phase is still non-NULL after it. -/
theorem sibling_phase_frame (s : Store) :
    List.Forall₂ (fun p p' =>
      chainFree p' = chainFree p ∧
      (p'.prev_photo_id = p.prev_photo_id ∨
        ∃ q ∈ s.photos, p'.prev_photo_id = some q.id ∧ 0 < q.id) ∧
      (p'.next_photo_id = p.next_photo_id ∨
        ∃ q ∈ s.photos, p'.next_photo_id = some q.id) ∧
      (p.prev_photo_id ≠ none → p'.prev_photo_id ≠ none) ∧
      (p.next_photo_id ≠ none → p'.next_photo_id ≠ none))
      s.photos (updatePhotoSiblings s).photos := by
  have hout : (updatePhotoSiblings s).photos =
      s.photos.map (applyToPhoto (consPairs (sortedPhotos s.photos))) := by
    show siblingsLoop (sortedPhotos s.photos) 0 0 s.photos = _
    rw [siblingsLoop_eq_applyPairs, applyPairs_eq_map]
  rw [hout, List.forall₂_map_right_iff, List.forall₂_same]
  intro q hq
  have hprev : (applyToPhoto (consPairs (sortedPhotos s.photos)) q).prev_photo_id
        = q.prev_photo_id ∨
      ∃ x ∈ s.photos,
        (applyToPhoto (consPairs (sortedPhotos s.photos)) q).prev_photo_id =
          some x.id ∧ 0 < x.id := by
    rcases applyToPhoto_prev_cases (consPairs (sortedPhotos s.photos)) q with
      h | h
    · exact Or.inl h
    · obtain ⟨pr, hpr, hval⟩ := h
      obtain ⟨⟨a, haL, haid, hapos⟩, _⟩ := consPairs_comp_mem hpr
      exact Or.inr ⟨a, (sortedPhotos_perm s.photos).subset haL,
        by rw [hval, haid], haid ▸ hapos⟩
  have hnext : (applyToPhoto (consPairs (sortedPhotos s.photos)) q).next_photo_id
        = q.next_photo_id ∨
      ∃ x ∈ s.photos,
        (applyToPhoto (consPairs (sortedPhotos s.photos)) q).next_photo_id =
          some x.id := by
    rcases applyToPhoto_next_cases (consPairs (sortedPhotos s.photos)) q with
      h | h
    · exact Or.inl h
    · obtain ⟨pr, hpr, hval⟩ := h
      obtain ⟨_, b, hbL, hbid⟩ := consPairs_comp_mem hpr
      exact Or.inr ⟨b, (sortedPhotos_perm s.photos).subset hbL,
        by rw [hval, hbid]⟩
  refine ⟨applyToPhoto_chainFree _ q, hprev, hnext, ?_, ?_⟩
  · intro hnn
    rcases hprev with h | h
    · rw [h]; exact hnn
    · obtain ⟨x, _, hx, _⟩ := h
      rw [hx]
      simp
  · intro hnn
    rcases hnext with h | h
    · rw [h]; exact hnn
    · obtain ⟨x, _, hx⟩ := h
      rw [hx]
      simp

/-- A photo row with the given id, set and timestamp, every other attribute
zero or NULL: helper for concrete instances. -/
def mkPhoto (id setId : Nat) (ta : Option String) : Photo :=
  { id := id, set_id := setId, prev_photo_id := none, next_photo_id := none,
    path := [toString setId, toString id], size := 0, width := 0, height := 0,
    taken_at := ta, aperture := none, camera := none, exposure_comp := none,
    exposure_time := none, flash := none, focal_length := none,
    focal_length_35 := none, iso := none, lat := none, lens := none,
    lng := none }

/-- Modelled from the spec: the claimed comparison on NULLable timestamps,
ascending with NULL sorted LAST.  This definition follows the claim's words,
for comparison with the code's nullFirstLE. -/
def specNullsLastLE (a b : Option String) : Bool :=
  match a, b with
  | _, none => true
  | none, some _ => false
  | some x, some y => strLE x y

/-- Modelled from the spec: the claimed phase A read order between two
adjacent rows — by set identity, then timestamp ascending with NULL
timestamps sorted last within the set. -/
def specNullsLastOrder (a b : Photo) : Prop :=
  a.set_id < b.set_id ∨
    (a.set_id = b.set_id ∧ specNullsLastLE a.taken_at b.taken_at = true)

instance specNullsLastOrder.instDecidable (a b : Photo) :
    Decidable (specNullsLastOrder a b) := by
  unfold specNullsLastOrder
  infer_instance

/-- The read order the code actually produces between two adjacent rows: by
set identity, then timestamp ascending with NULL timestamps FIRST within
the set (SQLite sorts NULL below every non-NULL value). -/
def readOrder (a b : Photo) : Prop :=
  a.set_id < b.set_id ∨
    (a.set_id = b.set_id ∧
      (b.taken_at = none → a.taken_at = none) ∧
      (∀ x y, a.taken_at = some x → b.taken_at = some y → strLE x y = true))

/-- C7 (amended).  Phase A reads the photos ordered by set identity, then
capture timestamp ascending, with the NULL-timestamp rows occupying a
stable position at the START of their set block, ties resolved by rowid:
the read sequence is a permutation of the table in which, along any two
positions of one set, a NULL timestamp never follows a non-NULL one and
non-NULL timestamps never decrease. -/
theorem phaseA_read_order (l : List Photo) :
    (sortedPhotos l).Perm l ∧ (sortedPhotos l).Pairwise readOrder := by
  refine ⟨sortedPhotos_perm l, ?_⟩
  refine (sortedPhotos_pairwise l).imp ?_
  intro a b hab
  by_cases hs : a.set_id = b.set_id
  · right
    refine ⟨hs, ?_, ?_⟩
    · intro hbn
      have hts := photoLE_ts hab hs
      rw [hbn] at hts
      cases ha : a.taken_at with
      | none => rfl
      | some v => rw [ha] at hts; simp [nullFirstLE] at hts
    · intro x y hx hy
      have hts := photoLE_ts hab hs
      rw [hx, hy] at hts
      simpa [nullFirstLE] using hts
  · left
    have := photoLE_set_le hab
    omega

/-- C7 is false as stated: one set holding a timestamped photo and a
timestamp-less photo is read with the NULL row first, not last, so the read
sequence violates the claimed nulls-last order. -/
theorem phaseA_read_order_counterexample :
    ¬ (sortedPhotos [mkPhoto 1 1 (some "2020-01-01 00:00:00"),
        mkPhoto 2 1 none]).Pairwise specNullsLastOrder := by
  decide

/-! ## Fallible writes (C3): updatePhotoSiblings and updateSets discard the
results of their UPDATE Exec calls (photos.go lines 328, 330 and 390), and
Scan (lines 459-460) discards the results both phase functions return. -/

/-- The sibling loop with fallible UPDATE execution: fails k tells whether
the k-th Exec call of the phase errors.  Both Exec results are discarded in
the source, so a failed write is skipped and the loop continues. -/
def siblingsLoopE (fails : Nat → Bool) :
    List Photo → Nat → Nat → Nat → List Photo → List Photo
  | [], _, _, _, photos => photos
  | row :: rest, prevId, prevSetId, k, photos =>
      if row.set_id = prevSetId ∧ 0 < prevId then
        siblingsLoopE fails rest row.id row.set_id (k + 2)
          (if fails (k + 1)
           then (if fails k then photos else setPrev photos row.id prevId)
           else setNext
             (if fails k then photos else setPrev photos row.id prevId)
             prevId row.id)
      else siblingsLoopE fails rest row.id row.set_id k photos

/-- updatePhotoSiblings with fallible writes: every Exec error is discarded,
so the transaction always reaches Commit and the function returns nil (ok)
whatever writes failed. -/
def updatePhotoSiblingsE (fails : Nat → Bool) (s : Store) :
    Except String Store :=
  Except.ok
    { s with photos := siblingsLoopE fails (sortedPhotos s.photos) 0 0 0 s.photos }

/-- The updateSets loop with fallible UPDATE execution: the per-group Exec
result is discarded likewise. -/
def updateSetsLoopE (fails : Nat → Bool) (photos : List Photo) :
    List Nat → Nat → List SetRow → List SetRow
  | [], _, sets => sets
  | sid :: rest, k, sets =>
      updateSetsLoopE fails photos rest (k + 1)
        (if fails k then sets else applySetUpdate photos sid sets)

/-- updateSets with fallible writes: always reaches Commit and returns ok. -/
def updateSetsE (fails : Nat → Bool) (s : Store) : Except String Store :=
  Except.ok
    { s with sets := updateSetsLoopE fails s.photos (setIds s.photos) 0 s.sets }

/-- Scan in photos.go: walk and store every input, then run both Linker
phases; the error values the two phase calls return are discarded. -/
def Scan (inputs : List DecodedPhoto) (s : Store) : Store :=
  updateSets (updatePhotoSiblings (scanStore inputs s))

/-- Scan over the fallible phases: a phase that reported an error would
leave its transaction uncommitted (state unchanged), and Scan would proceed
to the next phase regardless, because both results are discarded. -/
def ScanE (fails1 fails2 : Nat → Bool) (inputs : List DecodedPhoto)
    (s : Store) : Store :=
  match updatePhotoSiblingsE fails1 (scanStore inputs s) with
  | Except.ok t =>
      match updateSetsE fails2 t with
      | Except.ok u => u
      | Except.error _ => t
  | Except.error _ =>
      match updateSetsE fails2 (scanStore inputs s) with
      | Except.ok u => u
      | Except.error _ => scanStore inputs s

theorem siblingsLoopE_nofail :
    ∀ (rows : List Photo) (prevId prevSetId k : Nat) (photos : List Photo),
      siblingsLoopE (fun _ => false) rows prevId prevSetId k photos =
        siblingsLoop rows prevId prevSetId photos := by
  intro rows
  induction rows with
  | nil => intro _ _ _ _; rfl
  | cons row rest ih =>
      intro prevId prevSetId k photos
      rw [siblingsLoop_cons]
      by_cases h : row.set_id = prevSetId ∧ 0 < prevId
      · show (if row.set_id = prevSetId ∧ 0 < prevId then
            siblingsLoopE (fun _ => false) rest row.id row.set_id (k + 2)
              (setNext (setPrev photos row.id prevId) prevId row.id)
          else _) = _
        rw [if_pos h, if_pos h]
        exact ih _ _ _ _
      · show (if row.set_id = prevSetId ∧ 0 < prevId then _
          else siblingsLoopE (fun _ => false) rest row.id row.set_id k photos) = _
        rw [if_neg h, if_neg h]
        exact ih _ _ _ _

theorem updateSetsLoopE_nofail (photos : List Photo) :
    ∀ (sids : List Nat) (k : Nat) (sets : List SetRow),
      updateSetsLoopE (fun _ => false) photos sids k sets =
        sids.foldl (fun st sid => applySetUpdate photos sid st) sets := by
  intro sids
  induction sids with
  | nil => intro _ _; rfl
  | cons sid rest ih =>
      intro k sets
      show updateSetsLoopE (fun _ => false) photos rest (k + 1)
          (applySetUpdate photos sid sets) = _
      exact ih _ _

/-- C3 (amended).  A failed individual UPDATE inside either Linker phase is
ignored: the phase never aborts its transaction and never reports an error
— it commits whatever subset of its updates succeeded (so a partial linking
can be persisted) — and when no write fails each fallible phase coincides
with the pure phase; the top-level Scan discards the phase results either
way, so the run always continues to completion. -/
theorem linker_write_failures_ignored :
    (∀ (fails : Nat → Bool) (s : Store),
      (∃ t, updatePhotoSiblingsE fails s = Except.ok t) ∧
      (∃ t, updateSetsE fails s = Except.ok t)) ∧
    (∀ s : Store,
      updatePhotoSiblingsE (fun _ => false) s =
        Except.ok (updatePhotoSiblings s) ∧
      updateSetsE (fun _ => false) s = Except.ok (updateSets s)) ∧
    (∀ (inputs : List DecodedPhoto) (s : Store),
      ScanE (fun _ => false) (fun _ => false) inputs s = Scan inputs s) := by
  have h1 : ∀ s : Store, updatePhotoSiblingsE (fun _ => false) s =
      Except.ok (updatePhotoSiblings s) := by
    intro s
    unfold updatePhotoSiblingsE updatePhotoSiblings
    rw [siblingsLoopE_nofail]
  have h2 : ∀ s : Store, updateSetsE (fun _ => false) s =
      Except.ok (updateSets s) := by
    intro s
    unfold updateSetsE updateSets
    rw [updateSetsLoopE_nofail]
  refine ⟨fun fails s => ⟨⟨_, rfl⟩, ⟨_, rfl⟩⟩, fun s => ⟨h1 s, h2 s⟩, ?_⟩
  intro inputs s
  unfold ScanE Scan
  rw [h1]
  show (match updateSetsE (fun _ => false)
        (updatePhotoSiblings (scanStore inputs s)) with
    | Except.ok u => u
    | Except.error _ => updatePhotoSiblings (scanStore inputs s)) =
      updateSets (updatePhotoSiblings (scanStore inputs s))
  rw [h2]

/-- The concrete store the C3 counterexample runs on: one set with two
timestamped photos, as a fresh scan leaves them. -/
def exStoreC3 : Store :=
  { sets := [⟨5, none, "d", none, none⟩],
    photos := [mkPhoto 1 5 (some "2020-01-01 00:00:00"),
               mkPhoto 2 5 (some "2020-01-02 00:00:00")],
    nextSetId := 6, nextPhotoId := 3 }

/-- The failure pattern: the very first UPDATE of the sibling phase fails. -/
def exFailsC3 : Nat → Bool := fun k => decide (k = 0)

/-- The state the sibling phase persists under exFailsC3: the next link of
photo 1 is written, the prev link of photo 2 (the failed write) is not. -/
def exPartialC3 : Store :=
  { sets := [⟨5, none, "d", none, none⟩],
    photos := [{ mkPhoto 1 5 (some "2020-01-01 00:00:00") with
                   next_photo_id := some 2 },
               mkPhoto 2 5 (some "2020-01-02 00:00:00")],
    nextSetId := 6, nextPhotoId := 3 }

/-- C3 is false as stated: when an individual write inside the sibling
phase fails, the phase neither aborts its transaction nor propagates an
error — it reports success and persists the other update of the same pair,
a state differing both from the untouched store (something was persisted)
and from the fully linked store (not everything was). -/
theorem linker_write_failure_counterexample :
    updatePhotoSiblingsE exFailsC3 exStoreC3 = Except.ok exPartialC3 ∧
    exPartialC3 ≠ exStoreC3 ∧
    exPartialC3 ≠ updatePhotoSiblings exStoreC3 := by
  refine ⟨?_, by decide, by decide⟩
  rfl

/-- C1.  Scanner ingestion is idempotent: a second pass of the Scanner over
the unchanged input tree, from any starting store, leaves the store contents
(both tables and both rowid counters) exactly as they were after the first
pass: no photo row is inserted or updated for an already present path and no
set row is inserted for an already present name. -/
theorem scanner_idempotent (inputs : List DecodedPhoto) (s : Store) :
    scanStore inputs (scanStore inputs s) = scanStore inputs s :=
  scanStore_of_all_present inputs (scanStore inputs s)
    (scanStore_present inputs s)

/-! ## Scanner output invariants: the premises the Linker theorems take
hold of every store the Scanner leaves behind. -/

/-- The store invariant every Scanner output satisfies: each set row owns at
least one photo, photo rows carry no sibling links, photo rowids are
unique, positive and below the insertion counter, and each photo's
directory name has its set row. -/
def ScanInv (s : Store) : Prop :=
  (∀ r ∈ s.sets, ∃ p ∈ s.photos, p.set_id = r.id) ∧
  (∀ p ∈ s.photos, p.prev_photo_id = none ∧ p.next_photo_id = none) ∧
  (s.photos.map Photo.id).Nodup ∧
  (∀ p ∈ s.photos, 0 < p.id ∧ p.id < s.nextPhotoId) ∧
  0 < s.nextPhotoId ∧
  (∀ q ∈ s.photos, ∃ r ∈ s.sets, r.name = setNameOf q.path)

theorem scanInv_emptyStore : ScanInv emptyStore := by
  refine ⟨?_, ?_, ?_, ?_, ?_, ?_⟩ <;> simp [emptyStore]

theorem scanInv_insert (p : DecodedPhoto) (setId : Nat) (s : Store)
    (h : ScanInv s) (hname : ∃ r ∈ s.sets, r.name = setNameOf p.path) :
    ScanInv (insertPhotoIfAbsent p setId s) := by
  obtain ⟨h1, h2, h3, h4, h5, h6⟩ := h
  unfold insertPhotoIfAbsent
  split
  · exact ⟨h1, h2, h3, h4, h5, h6⟩
  · refine ⟨?_, ?_, ?_, ?_, ?_, ?_⟩
    · intro r hr
      obtain ⟨q, hq, hqs⟩ := h1 r hr
      exact ⟨q, List.mem_append_left _ hq, hqs⟩
    · intro q hq
      rcases List.mem_append.mp hq with hh | hh
      · exact h2 q hh
      · have hq2 : q = photoRow s.nextPhotoId setId p := by simpa using hh
        rw [hq2]
        exact ⟨rfl, rfl⟩
    · rw [List.map_append]
      refine List.Nodup.append h3 (by simp) ?_
      intro x hx hx2
      have hxv : x = s.nextPhotoId := by simpa using hx2
      obtain ⟨q, hq, hqid⟩ := List.mem_map.mp hx
      have := (h4 q hq).2
      omega
    · intro q hq
      rcases List.mem_append.mp hq with hh | hh
      · refine ⟨(h4 q hh).1, ?_⟩
        show q.id < s.nextPhotoId + 1
        have := (h4 q hh).2
        omega
      · have hq2 : q = photoRow s.nextPhotoId setId p := by simpa using hh
        rw [hq2]
        refine ⟨h5, ?_⟩
        show s.nextPhotoId < s.nextPhotoId + 1
        omega
    · show 0 < s.nextPhotoId + 1
      omega
    · intro q hq
      rcases List.mem_append.mp hq with hh | hh
      · exact h6 q hh
      · have hq2 : q = photoRow s.nextPhotoId setId p := by simpa using hh
        rw [hq2]
        exact hname

theorem scanInv_newset (p : DecodedPhoto) (s : Store) (h : ScanInv s) :
    ScanInv
      { sets := s.sets ++ [⟨s.nextSetId, none, setNameOf p.path, none, none⟩],
        photos := s.photos ++ [photoRow s.nextPhotoId s.nextSetId p],
        nextSetId := s.nextSetId + 1,
        nextPhotoId := s.nextPhotoId + 1 } := by
  obtain ⟨h1, h2, h3, h4, h5, h6⟩ := h
  refine ⟨?_, ?_, ?_, ?_, ?_, ?_⟩
  · intro r hr
    rcases List.mem_append.mp hr with hh | hh
    · obtain ⟨q, hq, hqs⟩ := h1 r hh
      exact ⟨q, List.mem_append_left _ hq, hqs⟩
    · have hr2 : r = ⟨s.nextSetId, none, setNameOf p.path, none, none⟩ := by
        simpa using hh
      refine ⟨photoRow s.nextPhotoId s.nextSetId p, by simp, ?_⟩
      rw [hr2]
      exact rfl
  · intro q hq
    rcases List.mem_append.mp hq with hh | hh
    · exact h2 q hh
    · have hq2 : q = photoRow s.nextPhotoId s.nextSetId p := by simpa using hh
      rw [hq2]
      exact ⟨rfl, rfl⟩
  · rw [List.map_append]
    refine List.Nodup.append h3 (by simp) ?_
    intro x hx hx2
    have hxv : x = s.nextPhotoId := by simpa using hx2
    obtain ⟨q, hq, hqid⟩ := List.mem_map.mp hx
    have := (h4 q hq).2
    omega
  · intro q hq
    rcases List.mem_append.mp hq with hh | hh
    · refine ⟨(h4 q hh).1, ?_⟩
      show q.id < s.nextPhotoId + 1
      have := (h4 q hh).2
      omega
    · have hq2 : q = photoRow s.nextPhotoId s.nextSetId p := by simpa using hh
      rw [hq2]
      refine ⟨h5, ?_⟩
      show s.nextPhotoId < s.nextPhotoId + 1
      omega
  · show 0 < s.nextPhotoId + 1
    omega
  · intro q hq
    rcases List.mem_append.mp hq with hh | hh
    · obtain ⟨r, hr, hrn⟩ := h6 q hh
      exact ⟨r, List.mem_append_left _ hr, hrn⟩
    · have hq2 : q = photoRow s.nextPhotoId s.nextSetId p := by simpa using hh
      rw [hq2]
      exact ⟨⟨s.nextSetId, none, setNameOf p.path, none, none⟩,
        List.mem_append_right _ (by simp), rfl⟩

theorem scanInv_store (p : DecodedPhoto) (s : Store) (h : ScanInv s) :
    ScanInv (store p s) := by
  unfold store
  split
  · next r hf =>
      have hrmem : r ∈ s.sets := List.mem_of_find?_eq_some hf
      have hrname : r.name = setNameOf p.path := by
        simpa using List.find?_some hf
      exact scanInv_insert p r.id s h ⟨r, hrmem, hrname⟩
  · next hf =>
      have hphoto_absent : s.photos.find? (fun q => q.path = p.path) = none := by
        cases hfp : s.photos.find? (fun q => q.path = p.path) with
        | none => rfl
        | some q =>
            exfalso
            have hqmem : q ∈ s.photos := List.mem_of_find?_eq_some hfp
            have hqpath : q.path = p.path := by simpa using List.find?_some hfp
            obtain ⟨r, hr, hrn⟩ := h.2.2.2.2.2 q hqmem
            have hs : (s.sets.find?
                (fun r => r.name = setNameOf p.path)).isSome = true :=
              find?_isSome_of_mem hr (by rw [← hqpath]; simp [hrn])
            rw [hf] at hs
            cases hs
      have hres : insertPhotoIfAbsent p s.nextSetId
          { s with
              sets := s.sets ++ [⟨s.nextSetId, none, setNameOf p.path,
                none, none⟩],
              nextSetId := s.nextSetId + 1 } =
          { sets := s.sets ++ [⟨s.nextSetId, none, setNameOf p.path,
              none, none⟩],
            photos := s.photos ++ [photoRow s.nextPhotoId s.nextSetId p],
            nextSetId := s.nextSetId + 1,
            nextPhotoId := s.nextPhotoId + 1 } := by
        unfold insertPhotoIfAbsent
        split
        · next q hfp =>
            exfalso
            have hfp2 : s.photos.find? (fun q => q.path = p.path) = some q :=
              hfp
            rw [hphoto_absent] at hfp2
            cases hfp2
        · rfl
      rw [hres]
      exact scanInv_newset p s h

/-- Every store the Scanner leaves behind, from a fresh database on,
satisfies the invariant: the Linker theorems' premises are facts of every
actual run. -/
theorem scanStore_scanInv (inputs : List DecodedPhoto) :
    ScanInv (scanStore inputs emptyStore) := by
  have key : ∀ (l : List DecodedPhoto) (s : Store), ScanInv s →
      ScanInv (scanStore l s) := by
    intro l
    induction l with
    | nil => intro s hs; exact hs
    | cons p ps ih =>
        intro s hs
        exact ih (store p s) (scanInv_store p s hs)
  exact key inputs emptyStore scanInv_emptyStore

end photos

namespace thumbs

/-! ## The thumbs package (thumbs.go): cache-aware thumbnail derivation.
The md5 hex digest is abstracted as a function parameter hash; the external
vipsthumbnail capability is abstracted as a Boolean outcome per invocation,
with the contract of spec section 6: a run that exits zero leaves a file at
the output path, a failed run leaves none. -/

/-- The file system as the derivation pipeline sees it: the set of paths at
which a file exists (artifacts are only created, never removed). -/
structure FS where
  files : List String
  deriving DecidableEq, Repr

/-- One invocation of the external vipsthumbnail tool: source path, output
path, target size and whether the crop flag is passed. -/
structure Invocation where
  source : String
  target : String
  size : Nat
  crop : Bool
  deriving DecidableEq, Repr

/-- One log line of the shape generateThumbs writes: Failed to create
thumbPath for photoPath with error err. -/
structure LogEntry where
  thumbPath : String
  photoPath : String
  err : String
  deriving DecidableEq, Repr

def bigThumbSize : Nat := 1000

def smallThumbSize : Nat := 200

/-- The error string a failed external run reports. -/
def vipsErr : String := "exit status 1"

/-- thumb.Basename in thumb.go, the md5 hex digest abstracted as hash. -/
def Basename (hash : String → String) (photoPath suffix : String) : String :=
  hash photoPath ++ "_" ++ suffix ++ ".jpg"

/-- path.Join of a directory and a file name. -/
def pathJoin (a b : String) : String :=
  a ++ "/" ++ b

/-- The outcome of one generateThumb call: the file system afterwards,
whether the returned err was nil, and the external invocations performed. -/
structure ThumbResult where
  fs : FS
  ok : Bool
  invocations : List Invocation
  deriving DecidableEq, Repr

/-- generateThumb in thumbs.go: if a file already exists at thumbPath the
nil stat error is returned at once (cache hit, nothing derived); otherwise
vipsthumbnail runs, deriveOk being its outcome. -/
def generateThumb (deriveOk : Bool) (photoPath thumbPath : String)
    (thumbSize : Nat) (crop : Bool) (fs : FS) : ThumbResult :=
  if thumbPath ∈ fs.files then { fs := fs, ok := true, invocations := [] }
  else if deriveOk then
    { fs := { files := thumbPath :: fs.files }, ok := true,
      invocations := [⟨photoPath, thumbPath, thumbSize, crop⟩] }
  else
    { fs := fs, ok := false,
      invocations := [⟨photoPath, thumbPath, thumbSize, crop⟩] }

/-- The big artifact path of generateThumbs. -/
def bigThumbPathOf (hash : String → String) (thumbsPath photoPath : String) :
    String :=
  pathJoin thumbsPath (Basename hash photoPath "big")

/-- The small artifact path of generateThumbs. -/
def smallThumbPathOf (hash : String → String) (thumbsPath photoPath : String) :
    String :=
  pathJoin thumbsPath (Basename hash photoPath "small")

/-- The first call generateThumbs makes: the big thumb, uncropped. -/
def bigResult (hash : String → String) (okBig : Bool)
    (thumbsPath photoPath : String) (fs : FS) : ThumbResult :=
  generateThumb okBig photoPath (bigThumbPathOf hash thumbsPath photoPath)
    bigThumbSize false fs

/-- smallThumbPhotoPath in generateThumbs: initialized to the photo path and
reassigned to the big artifact path when the big step returned nil. -/
def smallSource (hash : String → String) (okBig : Bool)
    (thumbsPath photoPath : String) (fs : FS) : String :=
  if (bigResult hash okBig thumbsPath photoPath fs).ok then
    bigThumbPathOf hash thumbsPath photoPath
  else photoPath

/-- The second call generateThumbs makes: the small thumb, cropped, from
smallThumbPhotoPath, over the file system the big step left. -/
def smallResult (hash : String → String) (okBig okSmall : Bool)
    (thumbsPath photoPath : String) (fs : FS) : ThumbResult :=
  generateThumb okSmall (smallSource hash okBig thumbsPath photoPath fs)
    (smallThumbPathOf hash thumbsPath photoPath) smallThumbSize true
    (bigResult hash okBig thumbsPath photoPath fs).fs

/-- The outcome of generateThumbs for one photo. -/
structure ThumbsResult where
  fs : FS
  bigOk : Bool
  smallOk : Bool
  invocations : List Invocation
  logs : List LogEntry
  deriving DecidableEq, Repr

/-- generateThumbs in thumbs.go: big first; a big failure is logged and the
small thumb then derives from the original photo instead of the big
artifact; a small failure is logged too; the small err is returned. -/
def generateThumbs (hash : String → String) (okBig okSmall : Bool)
    (thumbsPath photoPath : String) (fs : FS) : ThumbsResult :=
  { fs := (smallResult hash okBig okSmall thumbsPath photoPath fs).fs,
    bigOk := (bigResult hash okBig thumbsPath photoPath fs).ok,
    smallOk := (smallResult hash okBig okSmall thumbsPath photoPath fs).ok,
    invocations :=
      (bigResult hash okBig thumbsPath photoPath fs).invocations ++
        (smallResult hash okBig okSmall thumbsPath photoPath fs).invocations,
    logs :=
      (if (bigResult hash okBig thumbsPath photoPath fs).ok then []
       else [⟨bigThumbPathOf hash thumbsPath photoPath, photoPath, vipsErr⟩]) ++
      (if (smallResult hash okBig okSmall thumbsPath photoPath fs).ok then []
       else [⟨smallThumbPathOf hash thumbsPath photoPath, photoPath,
               vipsErr⟩]) }

/-- The shared state one worker of Generate sees: the file system, the
progress bar count and the log file contents. -/
structure WorkerState where
  fs : FS
  counter : Nat
  logs : List LogEntry
  deriving DecidableEq, Repr

/-- One iteration of the worker body in Generate: generateThumbs for the
photo path (its error ignored), then bar.Increment — unconditionally. -/
def workerStep (hash : String → String) (ok : Bool × Bool)
    (thumbsPath : String) (st : WorkerState) (photoPath : String) :
    WorkerState :=
  { fs := (generateThumbs hash ok.1 ok.2 thumbsPath photoPath st.fs).fs,
    counter := st.counter + 1,
    logs := st.logs ++
      (generateThumbs hash ok.1 ok.2 thumbsPath photoPath st.fs).logs }

/-- One worker of Generate draining its stream of photo paths in order;
outcomes k holds the external results for the k-th photo processed. -/
def workerLoop (hash : String → String) (outcomes : Nat → Bool × Bool)
    (thumbsPath : String) : List String → Nat → WorkerState → WorkerState
  | [], _, st => st
  | p :: ps, k, st =>
      workerLoop hash outcomes thumbsPath ps (k + 1)
        (workerStep hash (outcomes k) thumbsPath st p)

theorem generateThumb_inv (deriveOk : Bool) (photoPath thumbPath : String)
    (thumbSize : Nat) (crop : Bool) (fs : FS) :
    ∀ inv ∈ (generateThumb deriveOk photoPath thumbPath thumbSize crop
        fs).invocations,
      inv = ⟨photoPath, thumbPath, thumbSize, crop⟩ := by
  intro inv hinv
  unfold generateThumb at hinv
  by_cases h1 : thumbPath ∈ fs.files
  · rw [if_pos h1] at hinv
    cases hinv
  · rw [if_neg h1] at hinv
    by_cases h2 : deriveOk = true
    · rw [if_pos h2] at hinv
      simpa using hinv
    · rw [if_neg h2] at hinv
      simpa using hinv

/-- C4.  Thumbnail cache memoization: once a call of the ensure operation
for a (photo path, artifact path, size, crop) succeeded, the artifact
exists, so a second call for the same arguments — whatever the external
outcome would be — succeeds as a pure existence check: it performs no
invocation and leaves the file system untouched, and over both calls the
external derivation ran at most once. -/
theorem generateThumb_memo (ok1 ok2 : Bool) (photoPath thumbPath : String)
    (sz : Nat) (cr : Bool) (fs : FS)
    (h : (generateThumb ok1 photoPath thumbPath sz cr fs).ok = true) :
    (generateThumb ok2 photoPath thumbPath sz cr
        (generateThumb ok1 photoPath thumbPath sz cr fs).fs).ok = true ∧
    (generateThumb ok2 photoPath thumbPath sz cr
        (generateThumb ok1 photoPath thumbPath sz cr fs).fs).fs =
      (generateThumb ok1 photoPath thumbPath sz cr fs).fs ∧
    (generateThumb ok2 photoPath thumbPath sz cr
        (generateThumb ok1 photoPath thumbPath sz cr fs).fs).invocations
      = [] ∧
    (generateThumb ok1 photoPath thumbPath sz cr fs).invocations.length +
      (generateThumb ok2 photoPath thumbPath sz cr
        (generateThumb ok1 photoPath thumbPath sz cr fs).fs).invocations.length
      ≤ 1 := by
  have hmem : thumbPath ∈
      (generateThumb ok1 photoPath thumbPath sz cr fs).fs.files := by
    unfold generateThumb at h ⊢
    by_cases h1 : thumbPath ∈ fs.files
    · rw [if_pos h1]
      exact h1
    · rw [if_neg h1] at h ⊢
      by_cases h2 : ok1 = true
      · rw [if_pos h2]
        simp
      · rw [if_neg h2] at h
        cases h
  have hsecond : generateThumb ok2 photoPath thumbPath sz cr
      (generateThumb ok1 photoPath thumbPath sz cr fs).fs =
      { fs := (generateThumb ok1 photoPath thumbPath sz cr fs).fs,
        ok := true, invocations := [] } := by
    show (if thumbPath ∈ (generateThumb ok1 photoPath thumbPath sz cr
        fs).fs.files then _ else _) = _
    rw [if_pos hmem]
  have hlen : (generateThumb ok1 photoPath thumbPath sz cr
      fs).invocations.length ≤ 1 := by
    unfold generateThumb
    by_cases h1 : thumbPath ∈ fs.files
    · rw [if_pos h1]
      simp
    · rw [if_neg h1]
      by_cases h2 : ok1 = true
      · rw [if_pos h2]
        simp
      · rw [if_neg h2]
        simp
  rw [hsecond]
  exact ⟨rfl, rfl, rfl, by simpa using hlen⟩

/-- C8.  Two-tier derivation: in each per-photo run, any cropped (small
size class) invocation reads from the big artifact path when the big step
returned success, and from the original photo path when the big step
returned failure. -/
theorem small_from_big (hash : String → String) (okBig okSmall : Bool)
    (thumbsPath photoPath : String) (fs : FS) :
    ∀ inv ∈ (generateThumbs hash okBig okSmall thumbsPath photoPath
        fs).invocations,
      inv.crop = true →
      ((generateThumbs hash okBig okSmall thumbsPath photoPath fs).bigOk =
          true →
        inv.source = bigThumbPathOf hash thumbsPath photoPath) ∧
      ((generateThumbs hash okBig okSmall thumbsPath photoPath fs).bigOk =
          false →
        inv.source = photoPath) := by
  intro inv hinv hcrop
  have hinv' : inv ∈
      (bigResult hash okBig thumbsPath photoPath fs).invocations ++
        (smallResult hash okBig okSmall thumbsPath photoPath
          fs).invocations := hinv
  rcases List.mem_append.mp hinv' with h | h
  · have := generateThumb_inv _ _ _ _ _ _ inv h
    rw [this] at hcrop
    cases hcrop
  · have hsrc := generateThumb_inv _ _ _ _ _ _ inv h
    have hbig : (generateThumbs hash okBig okSmall thumbsPath photoPath
        fs).bigOk = (bigResult hash okBig thumbsPath photoPath fs).ok := rfl
    constructor
    · intro hok
      rw [hbig] at hok
      rw [hsrc]
      show smallSource hash okBig thumbsPath photoPath fs = _
      unfold smallSource
      rw [if_pos hok]
    · intro hok
      rw [hbig] at hok
      rw [hsrc]
      show smallSource hash okBig thumbsPath photoPath fs = _
      unfold smallSource
      rw [if_neg (by rw [hok]; exact Bool.false_ne_true)]

theorem workerLoop_counter (hash : String → String)
    (outcomes : Nat → Bool × Bool) (thumbsPath : String) :
    ∀ (paths : List String) (k : Nat) (st : WorkerState),
      (workerLoop hash outcomes thumbsPath paths k st).counter =
        st.counter + paths.length := by
  intro paths
  induction paths with
  | nil => intro _ _; rfl
  | cons p ps ih =>
      intro k st
      show (workerLoop hash outcomes thumbsPath ps (k + 1)
        (workerStep hash (outcomes k) thumbsPath st p)).counter = _
      rw [ih]
      show st.counter + 1 + ps.length = st.counter + (ps.length + 1)
      omega

theorem workerLoop_logs_mono (hash : String → String)
    (outcomes : Nat → Bool × Bool) (thumbsPath : String) :
    ∀ (paths : List String) (k : Nat) (st : WorkerState) (e : LogEntry),
      e ∈ st.logs →
      e ∈ (workerLoop hash outcomes thumbsPath paths k st).logs := by
  intro paths
  induction paths with
  | nil => intro _ _ _ he; exact he
  | cons p ps ih =>
      intro k st e he
      exact ih (k + 1) _ e (List.mem_append_left _ he)

/-- C9.  Worker failure isolation: a worker increments the shared progress
counter exactly once per photo of its stream and never stops early,
whatever the per-photo outcomes; and when the big or the small derivation
of the photo at the head of the remaining stream actually fails, the final
log holds an entry carrying that photo's path and the underlying error.
(Every photo of a run heads the remaining stream at its own turn, so the
head statement, quantified over all streams and start states, covers each
one.) -/
theorem worker_isolation (hash : String → String)
    (outcomes : Nat → Bool × Bool) (thumbsPath : String) :
    (∀ (paths : List String) (k : Nat) (st : WorkerState),
      (workerLoop hash outcomes thumbsPath paths k st).counter =
        st.counter + paths.length) ∧
    (∀ (p : String) (ps : List String) (k : Nat) (st : WorkerState),
      ((generateThumbs hash (outcomes k).1 (outcomes k).2 thumbsPath p
          st.fs).bigOk = false →
        ∃ e ∈ (workerLoop hash outcomes thumbsPath (p :: ps) k st).logs,
          e.photoPath = p ∧ e.err = vipsErr) ∧
      ((generateThumbs hash (outcomes k).1 (outcomes k).2 thumbsPath p
          st.fs).smallOk = false →
        ∃ e ∈ (workerLoop hash outcomes thumbsPath (p :: ps) k st).logs,
          e.photoPath = p ∧ e.err = vipsErr)) := by
  refine ⟨workerLoop_counter hash outcomes thumbsPath, ?_⟩
  intro p ps k st
  have hloop : workerLoop hash outcomes thumbsPath (p :: ps) k st =
      workerLoop hash outcomes thumbsPath ps (k + 1)
        (workerStep hash (outcomes k) thumbsPath st p) := rfl
  constructor
  · intro hfail
    have hbig : (bigResult hash (outcomes k).1 thumbsPath p st.fs).ok =
        false := hfail
    refine ⟨⟨bigThumbPathOf hash thumbsPath p, p, vipsErr⟩, ?_, rfl, rfl⟩
    rw [hloop]
    apply workerLoop_logs_mono
    show _ ∈ st.logs ++
      (generateThumbs hash (outcomes k).1 (outcomes k).2 thumbsPath p
        st.fs).logs
    apply List.mem_append_right
    show _ ∈ (if (bigResult hash (outcomes k).1 thumbsPath p st.fs).ok
        then ([] : List LogEntry)
        else [⟨bigThumbPathOf hash thumbsPath p, p, vipsErr⟩]) ++ _
    rw [hbig]
    exact List.mem_append_left _ (by simp)
  · intro hfail
    have hsmall : (smallResult hash (outcomes k).1 (outcomes k).2 thumbsPath
        p st.fs).ok = false := hfail
    refine ⟨⟨smallThumbPathOf hash thumbsPath p, p, vipsErr⟩, ?_, rfl, rfl⟩
    rw [hloop]
    apply workerLoop_logs_mono
    show _ ∈ st.logs ++
      (generateThumbs hash (outcomes k).1 (outcomes k).2 thumbsPath p
        st.fs).logs
    apply List.mem_append_right
    apply List.mem_append_right
    show _ ∈ (if (smallResult hash (outcomes k).1 (outcomes k).2 thumbsPath
        p st.fs).ok then ([] : List LogEntry)
        else [⟨smallThumbPathOf hash thumbsPath p, p, vipsErr⟩])
    rw [hsmall]
    simp

end thumbs

/-! ## Concrete instances: witnesses discharging the hypotheses of the
conditional theorems at explicit stores and file systems. -/

/-- A two-photo, one-set store as a fresh scan leaves it (one photo without
a timestamp). -/
def wStoreC5 : photos.Store :=
  ⟨[⟨1, none, "a", none, none⟩],
   [photos.mkPhoto 1 1 (some "2020-01-02 03:04:05"), photos.mkPhoto 2 1 none],
   2, 3⟩

/-- The sets row of wStoreC5 after the aggregate phase. -/
def wRowC5 : photos.SetRow :=
  ⟨1, some 1, "a", some 2, some "2020-01-02 03:04:05"⟩

theorem linker_set_aggregates_witness :
    wRowC5.photos_count =
      some ((wStoreC5.photos.filter (fun p => p.set_id = wRowC5.id)).length) ∧
    (∀ m, wRowC5.taken_at = some m →
      (∃ p ∈ wStoreC5.photos, p.set_id = wRowC5.id ∧ p.taken_at = some m) ∧
      (∀ p ∈ wStoreC5.photos, p.set_id = wRowC5.id → ∀ x,
        p.taken_at = some x → photos.strLE m x = true)) ∧
    (wRowC5.taken_at = none → ∀ p ∈ wStoreC5.photos, p.set_id = wRowC5.id →
      p.taken_at = none) :=
  photos.linker_set_aggregates wStoreC5 (by decide) wRowC5 (by decide)

theorem linker_set_cover_witness :
    (∃ c ∈ wStoreC5.photos, wRowC5.thumb_photo_id = some c.id ∧
      c.set_id = wRowC5.id) ∧
    (∀ p ∈ wStoreC5.photos, p.set_id = wRowC5.id → ∀ v, p.taken_at = some v →
      ∃ c ∈ wStoreC5.photos, wRowC5.thumb_photo_id = some c.id ∧
        c.set_id = wRowC5.id ∧
        ∃ m, c.taken_at = some m ∧
          (∀ q ∈ wStoreC5.photos, q.set_id = wRowC5.id → ∀ x,
            q.taken_at = some x → photos.strLE m x = true) ∧
          (∀ q ∈ wStoreC5.photos, q.set_id = wRowC5.id →
            q.taken_at = some m → c.id ≤ q.id)) :=
  photos.linker_set_cover wStoreC5 (by decide) wRowC5 (by decide)

/-- A two-photo, one-set store whose photos both carry timestamps, the
later one having the smaller rowid. -/
def wStoreC2 : photos.Store :=
  ⟨[⟨7, none, "d", none, none⟩],
   [photos.mkPhoto 1 7 (some "2020-01-02 00:00:00"),
    photos.mkPhoto 2 7 (some "2020-01-01 00:00:00")],
   8, 3⟩

theorem linker_sibling_chain_witness :
    (photos.tsSeq wStoreC2 7).Perm
      (wStoreC2.photos.filter (photos.tsPhoto 7)) ∧
    (photos.tsSeq wStoreC2 7).Pairwise
      (fun a b => photos.nullFirstLE a.taken_at b.taken_at = true) ∧
    (photos.tsSeq wStoreC2 7).Chain' (fun a b =>
      photos.nextIdOf (photos.updatePhotoSiblings wStoreC2).photos a.id =
        some b.id ∧
      photos.prevIdOf (photos.updatePhotoSiblings wStoreC2).photos b.id =
        some a.id) ∧
    (∀ p, (photos.tsSeq wStoreC2 7).getLast? = some p →
      photos.nextIdOf (photos.updatePhotoSiblings wStoreC2).photos p.id =
        none) :=
  photos.linker_sibling_chain wStoreC2 7 (by decide) (by decide) (by decide)
    (by decide)

theorem generateThumb_memo_witness :
    (thumbs.generateThumb false "p.jpg" "t.jpg" 1000 false
        (thumbs.generateThumb true "p.jpg" "t.jpg" 1000 false ⟨[]⟩).fs).ok =
      true ∧
    (thumbs.generateThumb false "p.jpg" "t.jpg" 1000 false
        (thumbs.generateThumb true "p.jpg" "t.jpg" 1000 false ⟨[]⟩).fs).fs =
      (thumbs.generateThumb true "p.jpg" "t.jpg" 1000 false ⟨[]⟩).fs ∧
    (thumbs.generateThumb false "p.jpg" "t.jpg" 1000 false
        (thumbs.generateThumb true "p.jpg" "t.jpg" 1000 false
          ⟨[]⟩).fs).invocations = [] ∧
    (thumbs.generateThumb true "p.jpg" "t.jpg" 1000 false
        ⟨[]⟩).invocations.length +
      (thumbs.generateThumb false "p.jpg" "t.jpg" 1000 false
        (thumbs.generateThumb true "p.jpg" "t.jpg" 1000 false
          ⟨[]⟩).fs).invocations.length ≤ 1 :=
  thumbs.generateThumb_memo true false "p.jpg" "t.jpg" 1000 false ⟨[]⟩
    (by decide)

/-- The cropped invocation generateThumbs performs when the big step fails
over an empty cache. -/
def wInvC8 : thumbs.Invocation :=
  ⟨"p.jpg", "t/h_small.jpg", 200, true⟩

theorem small_from_big_witness :
    ((thumbs.generateThumbs (fun _ => "h") false true "t" "p.jpg"
        ⟨[]⟩).bigOk = true →
      wInvC8.source = thumbs.bigThumbPathOf (fun _ => "h") "t" "p.jpg") ∧
    ((thumbs.generateThumbs (fun _ => "h") false true "t" "p.jpg"
        ⟨[]⟩).bigOk = false →
      wInvC8.source = "p.jpg") :=
  thumbs.small_from_big (fun _ => "h") false true "t" "p.jpg" ⟨[]⟩ wInvC8
    (by decide) (by decide)
